import Mathlib

/-!
# Verification of the sudoku-buddy constraint engine

This file gives a shallow embedding, in Lean 4, of the core logic of the
sudoku-buddy repository (files `src/src/sudoku/core/sudoku_core.py`,
`src/sudoku_core.py` and `src/src/sudoku/ai/sudoku_ai.py`), and proves or
refutes the specified properties of that logic.

Modelling conventions:
* A board is a function `Fin 9 → Fin 9 → Nat` (`0` = empty cell); numpy
  in-place mutation is modelled by explicit state passing, so every Python
  function that mutates its board argument is embedded as a function that
  also returns the final state of that array.
* Python's unbounded recursion is embedded with an explicit fuel parameter;
  all claims are proved either for every fuel value or for fuel large enough
  that the recursion never exhausts it (the recursion depth of the source is
  bounded by the number of empty cells, at most 81).
* `random.shuffle(xs)` produces a permutation of `xs`; the randomness is
  modelled by quantifying over the permutation that the shuffle applied.
-/

namespace SudokuBuddy

set_option maxRecDepth 16384

/-- A 9x9 board of small integers. `0` means empty, `1`-`9` a filled digit
(the Python code stores this as a numpy `(9, 9)` array). -/
def Board := Fin 9 → Fin 9 → Nat

instance : DecidableEq Board := by unfold Board; infer_instance

/-- Build a board from a list of rows (helper for concrete boards; missing
entries are `0`, matching zero-initialised numpy arrays). -/
def mkBoard (l : List (List Nat)) : Board :=
  fun r c => (l.getD r.val []).getD c.val 0

/-- The all-zero board (`np.zeros((9, 9))`). -/
def emptyBoard : Board := fun _ _ => 0

/-- Assignment `board[r, c] = v` of a single cell. -/
def setCell (b : Board) (r c : Fin 9) (v : Nat) : Board :=
  fun r2 c2 => if r2 = r ∧ c2 = c then v else b r2 c2

/-- The row `board[r, :]` as a list, in column order. -/
def rowVals (b : Board) (r : Fin 9) : List Nat :=
  (List.finRange 9).map (fun c => b r c)

/-- The column `board[:, c]` as a list, in row order. -/
def colVals (b : Board) (c : Fin 9) : List Nat :=
  (List.finRange 9).map (fun r => b r c)

/-- Row index of cell `(i, j)` of the 3x3 block containing row `r`
(`block_row = row // 3 * 3` in the source). -/
def boxIdx (r : Fin 9) (i : Fin 3) : Fin 9 :=
  ⟨r.val / 3 * 3 + i.val, by omega⟩

/-- The 3x3 block `board[block_row:block_row+3, block_col:block_col+3]`
containing cell `(r, c)`, flattened row-major as numpy does. -/
def boxVals (b : Board) (r c : Fin 9) : List Nat :=
  (List.finRange 3).flatMap
    (fun i => (List.finRange 3).map (fun j => b (boxIdx r i) (boxIdx c j)))

/-- `is_valid(board, row, col, num)` from `sudoku_core.py`: `num` occurs in
neither the row, the column, nor the containing 3x3 block. -/
def is_valid (b : Board) (r c : Fin 9) (n : Nat) : Bool :=
  !(decide (n ∈ rowVals b r) || decide (n ∈ colVals b c) ||
    decide (n ∈ boxVals b r c))

/-- All 81 cells in row-major order (the order `np.argwhere` reports). -/
def allCells : List (Fin 9 × Fin 9) :=
  (List.finRange 9).flatMap (fun r => (List.finRange 9).map (fun c => (r, c)))

/-- `find_empty_cell(board)`: the first empty cell in row-major order
(`np.argwhere(board == 0)` lists indices row-major and the code takes
element `[0]`), or `none` if the board is full. -/
def find_empty_cell (b : Board) : Option (Fin 9 × Fin 9) :=
  allCells.find? (fun p => b p.1 p.2 == 0)

/-- One iteration structure of the `for num in numbers` loop of
`solve_sudoku`: try each candidate in turn on the shared board, recursing
through `f`; a failed recursive call leaves the board as the recursion left
it, after which the code writes `0` back into the cell (the backtrack step). -/
def solveLoop (f : Board → Bool × Board) (r c : Fin 9) :
    List Nat → Board → Bool × Board
  | [], b => (false, b)
  | n :: ns, b =>
    if is_valid b r c n then
      match f (setCell b r c n) with
      | (true, b2) => (true, b2)
      | (false, b2) => solveLoop f r c ns (setCell b2 r c 0)
    else solveLoop f r c ns b

/-- `solve_sudoku(board, numbers)` from `sudoku_core.py` (both copies are
identical): backtracking over the first empty cell, trying the caller-supplied
digit order `nums`. The returned board is the final state of the mutated
array; `fuel` bounds the recursion depth (the Python recursion is bounded by
the number of empty cells, so any `fuel > 81` is faithful). -/
def solve_sudoku : Nat → Board → List Nat → Bool × Board
  | 0, b, _ => (false, b)
  | fuel + 1, b, nums =>
    match find_empty_cell b with
    | none => (true, b)
    | some (r, c) => solveLoop (fun b2 => solve_sudoku fuel b2 nums) r c nums b

lemma setCell_same (b : Board) (r c : Fin 9) (v : Nat) :
    setCell b r c v r c = v := by
  simp [setCell]

lemma setCell_of_ne (b : Board) (r c : Fin 9) (v : Nat) (r2 c2 : Fin 9)
    (h : ¬(r2 = r ∧ c2 = c)) : setCell b r c v r2 c2 = b r2 c2 := by
  simp [setCell, h]

lemma setCell_setCell (b : Board) (r c : Fin 9) (v w : Nat) :
    setCell (setCell b r c v) r c w = setCell b r c w := by
  funext r2 c2
  by_cases h : r2 = r ∧ c2 = c <;> simp [setCell, h]

lemma setCell_eq_self (b : Board) (r c : Fin 9) (h : b r c = 0) :
    setCell b r c 0 = b := by
  funext r2 c2
  by_cases h2 : r2 = r ∧ c2 = c
  · obtain ⟨rfl, rfl⟩ := h2; simp [setCell, h]
  · simp [setCell, h2]

lemma mem_allCells (p : Fin 9 × Fin 9) : p ∈ allCells := by
  rcases p with ⟨r, c⟩
  simp only [allCells, List.mem_flatMap, List.mem_map]
  exact ⟨r, List.mem_finRange r, c, List.mem_finRange c, rfl⟩

lemma find_empty_cell_some {b : Board} {r c : Fin 9}
    (h : find_empty_cell b = some (r, c)) : b r c = 0 := by
  have := List.find?_some h
  simpa using this

lemma find_empty_cell_none {b : Board} (h : find_empty_cell b = none)
    (r c : Fin 9) : b r c ≠ 0 := by
  have := List.find?_eq_none.mp h (r, c) (mem_allCells (r, c))
  simpa using this

/-- The backtracking loop restores the shared board on overall failure,
provided the recursive solver does (the inductive heart of claim C4). -/
lemma solveLoop_false_restores (f : Board → Bool × Board) (r c : Fin 9)
    (hf : ∀ b0, (f b0).1 = false → (f b0).2 = b0)
    (ns : List Nat) (b : Board) (hcell : b r c = 0)
    (h : (solveLoop f r c ns b).1 = false) :
    (solveLoop f r c ns b).2 = b := by
  induction ns generalizing b with
  | nil => simp [solveLoop]
  | cons n ns ih =>
    by_cases hv : is_valid b r c n
    · rw [solveLoop] at h ⊢
      simp only [hv, if_true] at h ⊢
      rcases hres : f (setCell b r c n) with ⟨ok, b2⟩
      cases ok with
      | true => simp only [hres] at h; simp at h
      | false =>
        simp only [hres] at h ⊢
        have hb2 : b2 = setCell b r c n := by
          have := hf (setCell b r c n)
          rw [hres] at this; exact this rfl
        have hrw : setCell b2 r c 0 = b := by
          rw [hb2, setCell_setCell, setCell_eq_self b r c hcell]
        simp only [hrw] at h ⊢
        exact ih b hcell h
    · rw [solveLoop] at h ⊢
      simp only [hv, if_false] at h ⊢
      exact ih b hcell h

/-- Claim C4: if `solve_sudoku` returns `False`, the board is left exactly
as it was at call entry — every speculative placement is undone. -/
theorem solve_sudoku_false_restores (fuel : Nat) (b : Board) (nums : List Nat)
    (h : (solve_sudoku fuel b nums).1 = false) :
    (solve_sudoku fuel b nums).2 = b := by
  induction fuel generalizing b with
  | zero => rfl
  | succ fuel ih =>
    rw [solve_sudoku] at h ⊢
    rcases hfe : find_empty_cell b with _ | ⟨r, c⟩
    · simp only [hfe] at h; simp at h
    · simp only [hfe] at h ⊢
      exact solveLoop_false_restores _ r c (fun b0 => ih b0) nums b
        (find_empty_cell_some hfe) h

/-- Concrete board for the C4 witness: row 0 needs a `9` in its last cell,
but column 8 already contains a `9`, so the solver fails immediately. -/
def c4Board : Board :=
  mkBoard [[1, 2, 3, 4, 5, 6, 7, 8, 0], [], [0, 0, 0, 0, 0, 0, 0, 0, 9]]

/-- Witness for C4 at a concrete unsolvable board. -/
theorem solve_sudoku_false_restores_witness :
    (solve_sudoku 5 c4Board [1, 2, 3, 4, 5, 6, 7, 8, 9]).1 = false ∧
      (solve_sudoku 5 c4Board [1, 2, 3, 4, 5, 6, 7, 8, 9]).2 = c4Board :=
  ⟨by decide, solve_sudoku_false_restores 5 c4Board _ (by decide)⟩

/-! ## Solution counting (`count_solutions`) -/

/-- `range(1, 10)`: the digit order used by the deterministic counter. -/
def digits19 : List Nat := (List.range 9).map (· + 1)

/-- The `for num in range(1, 10)` loop of the counting helper in
`src/src/sudoku/core/sudoku_core.py` (count component only; the helper runs
on a private copy of the board, so only the counter is observable).  After
each recursive call the counter is compared with `limit` and the whole loop
is abandoned once it is reached. -/
def countLoop (limit : Nat) (f : Board → Nat → Nat) (r c : Fin 9) :
    List Nat → Board → Nat → Nat
  | [], _, cnt => cnt
  | n :: ns, b, cnt =>
    if is_valid b r c n then
      match f (setCell b r c n) cnt with
      | cnt2 => if limit ≤ cnt2 then cnt2 else countLoop limit f r c ns b cnt2
    else countLoop limit f r c ns b cnt

/-- `_count_solutions_helper` (count component): return the counter once it
reaches `limit`; count a full board as one solution; otherwise recurse over
digits 1-9 at the first empty cell. -/
def countHelper (limit : Nat) : Nat → Board → Nat → Nat
  | 0, _, cnt => cnt
  | fuel + 1, b, cnt =>
    if limit ≤ cnt then cnt
    else
      match find_empty_cell b with
      | none => cnt + 1
      | some (r, c) => countLoop limit (countHelper limit fuel) r c digits19 b cnt

/-- `count_solutions(board, limit)`: runs the helper on `board.copy()` with
counter `0`.  Fuel `82` exceeds the deepest possible recursion (one level per
empty cell, at most 81, plus the leaf). -/
def count_solutions (b : Board) (limit : Nat) : Nat :=
  countHelper limit 82 b 0

/-- `count_solutions` of `src/src/sudoku/core/sudoku_core.py` as a state
transformer on the caller's array: the helper mutates only `board.copy()`,
so the caller's board is returned untouched. -/
def count_solutionsS (b : Board) (limit : Nat) : Nat × Board :=
  (countHelper limit 82 b 0, b)

/-- The digit loop of the module-level `_count_solutions_helper` of
`src/sudoku_core.py`, threading the mutated board: place the digit, recurse,
write `0` back, and only then compare the counter with `limit`. -/
def countLoopS (limit : Nat) (f : Board → Nat → Nat × Board) (r c : Fin 9) :
    List Nat → Board → Nat → Nat × Board
  | [], b, cnt => (cnt, b)
  | n :: ns, b, cnt =>
    if is_valid b r c n then
      match f (setCell b r c n) cnt with
      | (cnt2, b2) =>
        if limit ≤ cnt2 then (cnt2, setCell b2 r c 0)
        else countLoopS limit f r c ns (setCell b2 r c 0) cnt2
    else countLoopS limit f r c ns b cnt

/-- `_count_solutions_helper(board, limit, count)` of `src/sudoku_core.py`
as a state transformer: this copy is handed the caller's live board. -/
def count_solutions_helperS (limit : Nat) : Nat → Board → Nat → Nat × Board
  | 0, b, cnt => (cnt, b)
  | fuel + 1, b, cnt =>
    if limit ≤ cnt then (cnt, b)
    else
      match find_empty_cell b with
      | none => (cnt + 1, b)
      | some (r, c) =>
        countLoopS limit (count_solutions_helperS limit fuel) r c digits19 b cnt

/-- Wrong-board-shape guard for the loop: the digit loop of the legacy
helper hands back exactly the board it was given. -/
lemma countLoopS_restores (limit : Nat) (f : Board → Nat → Nat × Board)
    (r c : Fin 9) (hf : ∀ b0 cnt0, (f b0 cnt0).2 = b0)
    (ns : List Nat) (b : Board) (cnt : Nat) (hcell : b r c = 0) :
    (countLoopS limit f r c ns b cnt).2 = b := by
  induction ns generalizing b cnt with
  | nil => rfl
  | cons n ns ih =>
    rw [countLoopS]
    by_cases hv : is_valid b r c n
    · simp only [hv, if_true]
      rcases hres : f (setCell b r c n) cnt with ⟨cnt2, b2⟩
      have hb2 : b2 = setCell b r c n := by
        have := hf (setCell b r c n) cnt
        rw [hres] at this; exact this
      have hrw : setCell b2 r c 0 = b := by
        rw [hb2, setCell_setCell, setCell_eq_self b r c hcell]
      by_cases hl : limit ≤ cnt2
      · simp only [hl, if_true, hrw]
      · simp only [hl, if_false, hrw]
        exact ih b cnt2 hcell
    · simp only [hv, if_false]
      exact ih b cnt hcell

/-- Claim C6: after `count_solutions(board, limit)` returns, the caller's
board is unchanged.  In the `src/sudoku_core.py` copy the helper receives the
caller's live array and restores it cell for cell on every backtrack; in the
`src/src/sudoku/core/sudoku_core.py` copy the helper only ever touches
`board.copy()`. -/
theorem count_solutions_board_unchanged (limit fuel cnt : Nat) (b : Board) :
    (count_solutions_helperS limit fuel b cnt).2 = b ∧
      (count_solutionsS b limit).2 = b := by
  constructor
  · induction fuel generalizing b cnt with
    | zero => rfl
    | succ fuel ih =>
      rw [count_solutions_helperS]
      by_cases hl : limit ≤ cnt
      · simp [hl]
      · simp only [hl, if_false]
        rcases hfe : find_empty_cell b with _ | ⟨r, c⟩
        · rfl
        · exact countLoopS_restores limit _ r c (fun b0 cnt0 => ih cnt0 b0)
            digits19 b cnt (find_empty_cell_some hfe)
  · rfl

/-! ## Semantic validity of a board -/

/-- Two cells lie in a common unit (row, column, or 3x3 box). -/
def sameUnit (p q : Fin 9 × Fin 9) : Prop :=
  p.1 = q.1 ∨ p.2 = q.2 ∨ (p.1.val / 3 = q.1.val / 3 ∧ p.2.val / 3 = q.2.val / 3)

instance (p q : Fin 9 × Fin 9) : Decidable (sameUnit p q) := by
  unfold sameUnit; infer_instance

/-- No non-zero digit occurs twice in any row, column, or box. -/
def ValidPartial (b : Board) : Prop :=
  ∀ p q : Fin 9 × Fin 9, sameUnit p q → p ≠ q → b p.1 p.2 ≠ 0 →
    b p.1 p.2 ≠ b q.1 q.2

/-- Every cell of the board holds a value of at most 9 (the data-model
invariant `0 ≤ value ≤ 9` of the spec). -/
def ValsLe9 (b : Board) : Prop := ∀ r c : Fin 9, b r c ≤ 9

/-- Every cell is filled. -/
def FullB (b : Board) : Prop := ∀ r c : Fin 9, b r c ≠ 0

lemma mem_rowVals {b : Board} {r : Fin 9} {n : Nat} :
    n ∈ rowVals b r ↔ ∃ c, b r c = n := by
  simp [rowVals, eq_comm]

lemma mem_colVals {b : Board} {c : Fin 9} {n : Nat} :
    n ∈ colVals b c ↔ ∃ r, b r c = n := by
  simp [colVals, eq_comm]

lemma mem_boxVals {b : Board} {r c : Fin 9} {n : Nat} :
    n ∈ boxVals b r c ↔
      ∃ r2 c2 : Fin 9, r2.val / 3 = r.val / 3 ∧ c2.val / 3 = c.val / 3 ∧
        b r2 c2 = n := by
  constructor
  · intro h
    simp only [boxVals, List.mem_flatMap, List.mem_map] at h
    obtain ⟨i, -, j, -, hij⟩ := h
    refine ⟨boxIdx r i, boxIdx c j, ?_, ?_, hij⟩
    · have := r.isLt; have := i.isLt; simp only [boxIdx]; omega
    · have := c.isLt; have := j.isLt; simp only [boxIdx]; omega
  · rintro ⟨r2, c2, hr, hc, hv⟩
    simp only [boxVals, List.mem_flatMap, List.mem_map]
    refine ⟨⟨r2.val % 3, by omega⟩, List.mem_finRange _,
      ⟨c2.val % 3, by omega⟩, List.mem_finRange _, ?_⟩
    have h1 : boxIdx r ⟨r2.val % 3, by omega⟩ = r2 := by
      apply Fin.ext; simp only [boxIdx]; omega
    have h2 : boxIdx c ⟨c2.val % 3, by omega⟩ = c2 := by
      apply Fin.ext; simp only [boxIdx]; omega
    rw [h1, h2, hv]

/-- `is_valid` succeeds exactly when no cell sharing a unit with `(r, c)`
already holds `n`. -/
lemma is_valid_iff {b : Board} {r c : Fin 9} {n : Nat} :
    is_valid b r c n = true ↔
      ∀ p : Fin 9 × Fin 9, sameUnit (r, c) p → b p.1 p.2 ≠ n := by
  simp only [is_valid, Bool.not_eq_true', Bool.or_eq_false_iff,
    decide_eq_false_iff_not]
  constructor
  · rintro ⟨⟨hrow, hcol⟩, hbox⟩ ⟨pr, pc⟩ hsu hv
    rcases hsu with h | h | ⟨h1, h2⟩
    · exact hrow (mem_rowVals.mpr ⟨pc, by rw [show r = pr from h]; exact hv⟩)
    · exact hcol (mem_colVals.mpr ⟨pr, by rw [show c = pc from h]; exact hv⟩)
    · exact hbox (mem_boxVals.mpr ⟨pr, pc, h1.symm, h2.symm, hv⟩)
  · intro h
    refine ⟨⟨?_, ?_⟩, ?_⟩
    · intro hm
      obtain ⟨c2, hc2⟩ := mem_rowVals.mp hm
      exact h (r, c2) (Or.inl rfl) hc2
    · intro hm
      obtain ⟨r2, hr2⟩ := mem_colVals.mp hm
      exact h (r2, c) (Or.inr (Or.inl rfl)) hr2
    · intro hm
      obtain ⟨r2, c2, h1, h2, hv⟩ := mem_boxVals.mp hm
      exact h (r2, c2) (Or.inr (Or.inr ⟨h1.symm, h2.symm⟩)) hv

lemma sameUnit_symm {p q : Fin 9 × Fin 9} (h : sameUnit p q) : sameUnit q p := by
  rcases h with h | h | ⟨h1, h2⟩
  · exact Or.inl h.symm
  · exact Or.inr (Or.inl h.symm)
  · exact Or.inr (Or.inr ⟨h1.symm, h2.symm⟩)

/-- Placing a digit that passed `is_valid` into an empty cell keeps the
board free of duplicates. -/
lemma validPartial_setCell {b : Board} (hb : ValidPartial b) {r c : Fin 9}
    {n : Nat} (hv : is_valid b r c n = true) :
    ValidPartial (SudokuBuddy.setCell b r c n) := by
  intro p q hsu hne hnz
  by_cases hp : p = (r, c)
  · subst hp
    rw [setCell_same] at hnz ⊢
    have hq : ¬(q.1 = r ∧ q.2 = c) := by
      intro ⟨h1, h2⟩; exact hne (Prod.ext h1 h2).symm
    rw [setCell_of_ne _ _ _ _ _ _ hq]
    intro heq
    exact is_valid_iff.mp hv q hsu heq.symm
  · have hp2 : ¬(p.1 = r ∧ p.2 = c) := by
      intro ⟨h1, h2⟩; exact hp (Prod.ext h1 h2)
    rw [setCell_of_ne _ _ _ _ _ _ hp2] at hnz ⊢
    by_cases hq : q = (r, c)
    · subst hq
      rw [setCell_same]
      intro heq
      exact is_valid_iff.mp hv p (sameUnit_symm hsu) heq
    · have hq2 : ¬(q.1 = r ∧ q.2 = c) := by
        intro ⟨h1, h2⟩; exact hq (Prod.ext h1 h2)
      rw [setCell_of_ne _ _ _ _ _ _ hq2]
      exact hb p q hsu hne hnz

lemma valsLe9_setCell {b : Board} (hb : ValsLe9 b) {r c : Fin 9} {n : Nat}
    (hn : n ≤ 9) : ValsLe9 (SudokuBuddy.setCell b r c n) := by
  intro r2 c2
  by_cases h : r2 = r ∧ c2 = c <;> simp [SudokuBuddy.setCell, h, hn, hb r2 c2]

/-- The number of empty cells (used only to discharge the fuel bound: the
Python recursion depth equals this quantity). -/
def emptyCount (b : Board) : Nat :=
  (Finset.univ.filter (fun p : Fin 9 × Fin 9 => b p.1 p.2 = 0)).card

lemma emptyCount_le_81 (b : Board) : emptyCount b ≤ 81 := by
  calc emptyCount b ≤ (Finset.univ : Finset (Fin 9 × Fin 9)).card :=
        Finset.card_filter_le _ _
    _ = 81 := by simp

lemma emptyCount_setCell_lt {b : Board} {r c : Fin 9} {n : Nat}
    (hb : b r c = 0) (hn : n ≠ 0) : emptyCount (setCell b r c n) < emptyCount b := by
  apply Finset.card_lt_card
  rw [Finset.ssubset_def]
  constructor
  · intro p hp
    simp only [Finset.mem_filter, Finset.mem_univ, true_and] at hp ⊢
    by_cases h : p.1 = r ∧ p.2 = c
    · rw [setCell, if_pos h] at hp; exact absurd hp hn
    · rwa [setCell, if_neg h] at hp
  · intro hsub
    have h1 : (r, c) ∈ Finset.univ.filter
        (fun p : Fin 9 × Fin 9 => b p.1 p.2 = 0) := by
      simp [hb]
    have h2 := hsub h1
    simp only [Finset.mem_filter, Finset.mem_univ, true_and] at h2
    have h3 : setCell b r c n r c = 0 := h2
    rw [setCell_same] at h3
    exact hn h3

/-- The digit loop of `solve_sudoku` preserves an arbitrary invariant `P`
when it reports success, given that the recursive solver turns `P` into `Q`
and restores the board on failure. -/
lemma solveLoop_true_abstract (f : Board → Bool × Board) (r c : Fin 9)
    (P Q : Board → Prop)
    (hrestore : ∀ b0, (f b0).1 = false → (f b0).2 = b0)
    (htrue : ∀ b0, P b0 → (f b0).1 = true → Q (f b0).2)
    (ns : List Nat) (b : Board) (hcell : b r c = 0)
    (hset : ∀ n ∈ ns, is_valid b r c n = true → P (setCell b r c n))
    (h : (solveLoop f r c ns b).1 = true) :
    Q (solveLoop f r c ns b).2 := by
  induction ns generalizing b with
  | nil => exact absurd h (by simp [solveLoop])
  | cons n ns ih =>
    rw [solveLoop] at h ⊢
    by_cases hval : is_valid b r c n
    · simp only [hval, if_true] at h ⊢
      rcases hres : f (setCell b r c n) with ⟨ok, b2⟩
      cases ok with
      | true =>
        simp only [hres] at h ⊢
        have := htrue (setCell b r c n) (hset n (by simp) hval)
        rw [hres] at this
        exact this rfl
      | false =>
        simp only [hres] at h ⊢
        have hb2 : b2 = setCell b r c n := by
          have := hrestore (setCell b r c n)
          rw [hres] at this; exact this rfl
        have hrw : setCell b2 r c 0 = b := by
          rw [hb2, setCell_setCell, setCell_eq_self b r c hcell]
        rw [hrw] at h ⊢
        exact ih b hcell (fun m hm hv => hset m (by simp [hm]) hv) h
    · simp only [hval, if_false] at h ⊢
      exact ih b hcell (fun m hm hv => hset m (by simp [hm]) hv) h

/-- If `solve_sudoku` succeeds then its result board is completely filled
and satisfies every invariant `P` that the input satisfied and that single
valid placements of digits from `nums` preserve (the inductive heart of
claims C5 and C1). -/
lemma solve_sudoku_true_abstract (nums : List Nat) (P : Board → Prop)
    (hpres : ∀ (b : Board) (r c : Fin 9) (n : Nat), n ∈ nums → P b →
      b r c = 0 → is_valid b r c n = true → P (setCell b r c n)) :
    ∀ (fuel : Nat) (b : Board), P b → (solve_sudoku fuel b nums).1 = true →
      P (solve_sudoku fuel b nums).2 ∧ FullB (solve_sudoku fuel b nums).2 := by
  intro fuel
  induction fuel with
  | zero => intro b _ h; exact absurd h (by simp [solve_sudoku])
  | succ fuel ih =>
    intro b hP h
    rw [solve_sudoku] at h ⊢
    rcases hfe : find_empty_cell b with _ | ⟨r, c⟩
    · simp only [hfe] at h ⊢
      exact ⟨hP, fun r2 c2 => find_empty_cell_none hfe r2 c2⟩
    · simp only [hfe] at h ⊢
      exact solveLoop_true_abstract _ r c P
        (fun b2 => P b2 ∧ FullB b2)
        (fun b0 => solve_sudoku_false_restores fuel b0 nums)
        (fun b0 h1 h2 => ih b0 h1 h2) nums b
        (find_empty_cell_some hfe)
        (fun n hn hv => hpres b r c n hn hP (find_empty_cell_some hfe) hv) h

/-! ## `find_conflicts` and its numpy semantics

`find_conflicts` relies on numpy array operations, which are modelled
faithfully below, including the failure mode of boolean-mask indexing:
indexing an array with a boolean mask of a different length raises
`IndexError`, modelled as `Except.error ()`. -/

instance {ε α : Type _} [DecidableEq ε] [DecidableEq α] :
    DecidableEq (Except ε α) := fun a b =>
  match a, b with
  | .error e, .error f =>
    if h : e = f then .isTrue (by rw [h])
    else .isFalse (by intro hh; injection hh; exact h (by assumption))
  | .error _, .ok _ => .isFalse (by intro h; exact Except.noConfusion h)
  | .ok _, .error _ => .isFalse (by intro h; exact Except.noConfusion h)
  | .ok x, .ok y =>
    if h : x = y then .isTrue (by rw [h])
    else .isFalse (by intro hh; injection hh; exact h (by assumption))

/-- Insert a value into a sorted list (ascending). -/
def insertSorted (v : Nat) : List Nat → List Nat
  | [] => [v]
  | w :: ws => if v ≤ w then v :: w :: ws else w :: insertSorted v ws

/-- Sort a list of naturals ascending (insertion sort). -/
def sortNat (l : List Nat) : List Nat := l.foldr insertSorted []

/-- `np.unique(xs)`: the distinct values of `xs` in ascending order. -/
def npUnique (l : List Nat) : List Nat := sortNat l.dedup

/-- The non-zero entries `xs[xs > 0]` of an array, in array order. -/
def nzList (l : List Nat) : List Nat := l.filter (fun v => decide (0 < v))

/-- Boolean-mask indexing `xs[mask]`.  numpy raises `IndexError` when the
mask length differs from the array length. -/
def boolMaskIndex {α : Type _} (xs : List α) (mask : List Bool) :
    Except Unit (List α) :=
  if xs.length = mask.length then
    Except.ok ((xs.zip mask).filterMap (fun p => if p.2 then some p.1 else none))
  else Except.error ()

/-- The row/column duplicate extraction
`vals[vals > 0][np.unique(vals[vals > 0], return_counts=True)[1] > 1]` of
`find_conflicts`: the boolean mask is built over the *unique* values but
indexes the (possibly longer) non-zero array. -/
def unitDuplicatesRC (vals : List Nat) : Except Unit (List Nat) :=
  let nzl := nzList vals
  boolMaskIndex nzl ((npUnique nzl).map (fun v => decide (1 < nzl.count v)))

/-- The block duplicate extraction `unique[counts > 1]` of `find_conflicts`:
here the mask indexes the unique array itself, so the lengths always agree
and no error is possible. -/
def unitDuplicatesBlock (vals : List Nat) : List Nat :=
  let nzl := nzList vals
  (npUnique nzl).filter (fun v => decide (1 < nzl.count v))

lemma length_insertSorted (v : Nat) (l : List Nat) :
    (insertSorted v l).length = l.length + 1 := by
  induction l with
  | nil => rfl
  | cons w ws ih =>
    rw [insertSorted]
    by_cases h : v ≤ w <;> simp [h, ih]

lemma mem_insertSorted {x v : Nat} {l : List Nat} :
    x ∈ insertSorted v l ↔ x = v ∨ x ∈ l := by
  induction l with
  | nil => simp [insertSorted]
  | cons w ws ih =>
    rw [insertSorted]
    by_cases h : v ≤ w
    · simp [h]
    · simp only [h, if_false, List.mem_cons, ih]
      tauto

lemma length_sortNat (l : List Nat) : (sortNat l).length = l.length := by
  induction l with
  | nil => rfl
  | cons v vs ih =>
    rw [sortNat, List.foldr_cons, length_insertSorted,
      show List.foldr insertSorted [] vs = sortNat vs from rfl, ih]
    rfl

lemma mem_sortNat {x : Nat} {l : List Nat} : x ∈ sortNat l ↔ x ∈ l := by
  induction l with
  | nil => simp [sortNat]
  | cons v vs ih =>
    rw [sortNat, List.foldr_cons]
    rw [mem_insertSorted]
    simp only [List.mem_cons]
    rw [show vs.foldr insertSorted [] = sortNat vs from rfl] at *
    tauto

lemma mem_npUnique {x : Nat} {l : List Nat} : x ∈ npUnique l ↔ x ∈ l := by
  rw [npUnique, mem_sortNat, List.mem_dedup]

lemma length_npUnique_of_nodup {l : List Nat} (h : l.Nodup) :
    (npUnique l).length = l.length := by
  rw [npUnique, length_sortNat, List.dedup_eq_self.mpr h]

lemma length_npUnique_lt_of_not_nodup {l : List Nat} (h : ¬l.Nodup) :
    (npUnique l).length < l.length := by
  rw [npUnique, length_sortNat]
  rcases Nat.lt_or_ge l.dedup.length l.length with h2 | h2
  · exact h2
  · exfalso
    have hle := (List.dedup_sublist l).length_le
    have heq : l.dedup = l :=
      (List.dedup_sublist l).eq_of_length (Nat.le_antisymm hle h2)
    exact h (heq ▸ List.nodup_dedup l)

lemma zip_filterMap_nil {α : Type _} {xs : List α} {mask : List Bool}
    (h : ∀ y ∈ mask, y = false) :
    (xs.zip mask).filterMap (fun p => if p.2 then some p.1 else none) = [] := by
  induction xs generalizing mask with
  | nil => rfl
  | cons x xs ih =>
    cases mask with
    | nil => rfl
    | cons m ms =>
      have hm : m = false := h m (by simp)
      simp only [List.zip_cons_cons, List.filterMap_cons, hm, if_false]
      exact ih (fun y hy => h y (by simp [hy]))

/-- On a duplicate-free unit the row/column extraction succeeds and finds
nothing. -/
lemma unitDuplicatesRC_of_nodup {vals : List Nat} (h : (nzList vals).Nodup) :
    unitDuplicatesRC vals = Except.ok [] := by
  rw [unitDuplicatesRC, boolMaskIndex]
  rw [if_pos (by rw [List.length_map, length_npUnique_of_nodup h])]
  congr 1
  apply zip_filterMap_nil
  intro y hy
  simp only [List.mem_map] at hy
  obtain ⟨v, hv, hdec⟩ := hy
  have hc : (nzList vals).count v ≤ 1 := List.nodup_iff_count_le_one.mp h v
  rw [← hdec]
  simp only [decide_eq_false_iff_not]
  omega

/-- On a unit with a repeated non-zero digit the row/column extraction hits
the numpy boolean-mask length mismatch and raises. -/
lemma unitDuplicatesRC_of_not_nodup {vals : List Nat}
    (h : ¬(nzList vals).Nodup) : unitDuplicatesRC vals = Except.error () := by
  rw [unitDuplicatesRC, boolMaskIndex, if_neg]
  rw [List.length_map]
  exact Nat.ne_of_gt (length_npUnique_lt_of_not_nodup h)

lemma unitDuplicatesBlock_of_nodup {vals : List Nat}
    (h : (nzList vals).Nodup) : unitDuplicatesBlock vals = [] := by
  rw [unitDuplicatesBlock, List.filter_eq_nil_iff]
  intro v hv
  have hc : (nzList vals).count v ≤ 1 := List.nodup_iff_count_le_one.mp h v
  simp only [decide_eq_true_eq]
  omega

lemma unitDuplicatesBlock_of_not_nodup {vals : List Nat}
    (h : ¬(nzList vals).Nodup) :
    ∃ v ∈ unitDuplicatesBlock vals, 2 ≤ (nzList vals).count v := by
  have h2 : ∃ v, 2 ≤ (nzList vals).count v := by
    by_contra hno
    push_neg at hno
    exact h (List.nodup_iff_count_le_one.mpr (fun a => by have := hno a; omega))
  obtain ⟨v, hv⟩ := h2
  refine ⟨v, ?_, hv⟩
  rw [unitDuplicatesBlock, List.mem_filter]
  constructor
  · rw [mem_npUnique]
    have : 0 < (nzList vals).count v := by omega
    exact List.count_pos_iff.mp this
  · simp only [decide_eq_true_eq]; omega

/-- `np.where(vals == num)` over a row: the set `{(i, c) | board[i, c] = num}`. -/
def rowConflictCells (b : Board) (i : Fin 9) (num : Nat) :
    Finset (Fin 9 × Fin 9) :=
  (Finset.univ.filter (fun c : Fin 9 => b i c = num)).image (fun c => (i, c))

/-- `np.where(vals == num)` over a column. -/
def colConflictCells (b : Board) (i : Fin 9) (num : Nat) :
    Finset (Fin 9 × Fin 9) :=
  (Finset.univ.filter (fun r : Fin 9 => b r i = num)).image (fun r => (r, i))

/-- Global coordinates of the cell `(i, j)` of block `(br, bc)`. -/
def blockCell (br bc : Fin 3) (i j : Fin 3) : Fin 9 × Fin 9 :=
  (⟨br.val * 3 + i.val, by omega⟩, ⟨bc.val * 3 + j.val, by omega⟩)

/-- The 3x3 block `(br, bc)` flattened row-major, as numpy slices it. -/
def blockVals (b : Board) (br bc : Fin 3) : List Nat :=
  (List.finRange 3).flatMap
    (fun i => (List.finRange 3).map (fun j => b (blockCell br bc i j).1 (blockCell br bc i j).2))

/-- `np.argwhere(block == num)` mapped back to global coordinates. -/
def blockConflictCells (b : Board) (br bc : Fin 3) (num : Nat) :
    Finset (Fin 9 × Fin 9) :=
  (Finset.univ.filter
      (fun ij : Fin 3 × Fin 3 => b (blockCell br bc ij.1 ij.2).1 (blockCell br bc ij.1 ij.2).2 = num)).image
    (fun ij => blockCell br bc ij.1 ij.2)

/-- `conflicts.update({...})` for each duplicated digit in turn. -/
def addConflicts (g : Nat → Finset (Fin 9 × Fin 9)) (ds : List Nat)
    (acc : Finset (Fin 9 × Fin 9)) : Finset (Fin 9 × Fin 9) :=
  ds.foldl (fun a num => a ∪ g num) acc

/-- The `for i in range(9)` loop of `find_conflicts`: row `i` then column
`i`, each possibly raising on the mask length mismatch. -/
def fcRowCol (b : Board) : List (Fin 9) → Finset (Fin 9 × Fin 9) →
    Except Unit (Finset (Fin 9 × Fin 9))
  | [], acc => Except.ok acc
  | i :: is, acc =>
    match unitDuplicatesRC (rowVals b i) with
    | .error e => .error e
    | .ok ds =>
      match unitDuplicatesRC (colVals b i) with
      | .error e => .error e
      | .ok ds2 =>
        fcRowCol b is (addConflicts (colConflictCells b i) ds2
          (addConflicts (rowConflictCells b i) ds acc))

/-- The block pairs `(br, bc)` in the nested-loop order of the source. -/
def blockPairList : List (Fin 3 × Fin 3) :=
  (List.finRange 3).flatMap (fun br => (List.finRange 3).map (fun bc => (br, bc)))

/-- The `for br in range(3): for bc in range(3)` loop of `find_conflicts`. -/
def fcBlocks (b : Board) : List (Fin 3 × Fin 3) → Finset (Fin 9 × Fin 9) →
    Finset (Fin 9 × Fin 9)
  | [], acc => acc
  | (br, bc) :: ps, acc =>
    fcBlocks b ps
      (addConflicts (blockConflictCells b br bc)
        (unitDuplicatesBlock (blockVals b br bc)) acc)

/-- `find_conflicts(board)` from `sudoku_core.py` (both copies identical),
with numpy's boolean-mask indexing error modelled as `Except.error ()`. -/
def find_conflicts (b : Board) : Except Unit (Finset (Fin 9 × Fin 9)) :=
  match fcRowCol b (List.finRange 9) ∅ with
  | .error e => .error e
  | .ok acc => .ok (fcBlocks b blockPairList acc)

/-- The board of the spec's concrete scenario: `board[0][0] = 5`,
`board[0][1] = 5`, all other cells `0`. -/
def c2Board : Board := mkBoard [[5, 5]]

/-- Claim C2 (code_bug evidence): on the spec's own example board,
`find_conflicts` does not return a conflict set at all — the boolean mask
built from `np.unique` has length 1 but indexes the length-2 non-zero row
array, so numpy raises `IndexError`. -/
theorem find_conflicts_c2Board_raises :
    find_conflicts c2Board = Except.error () := by decide

/-! ## Bridging `find_conflicts` with semantic validity -/

/-- The cells of row `i`. -/
def rowCellList (i : Fin 9) : List (Fin 9 × Fin 9) :=
  (List.finRange 9).map (fun c => (i, c))

/-- The cells of column `i`. -/
def colCellList (i : Fin 9) : List (Fin 9 × Fin 9) :=
  (List.finRange 9).map (fun r => (r, i))

/-- The cells of block `(br, bc)`, row-major. -/
def blockCellList (br bc : Fin 3) : List (Fin 9 × Fin 9) :=
  (List.finRange 3).flatMap
    (fun i => (List.finRange 3).map (fun j => blockCell br bc i j))

lemma rowVals_eq_map (b : Board) (i : Fin 9) :
    rowVals b i = (rowCellList i).map (fun p => b p.1 p.2) := by
  rw [rowCellList, List.map_map]; rfl

lemma colVals_eq_map (b : Board) (i : Fin 9) :
    colVals b i = (colCellList i).map (fun p => b p.1 p.2) := by
  rw [colCellList, List.map_map]; rfl

lemma blockVals_eq_map (b : Board) (br bc : Fin 3) :
    blockVals b br bc = (blockCellList br bc).map (fun p => b p.1 p.2) := by
  rw [blockVals, blockCellList, List.map_flatMap]
  simp only [List.map_map]
  rfl

/-- Every non-zero digit of a list of pairwise unit-sharing, pairwise
distinct cells occurs only once on a duplicate-free board. -/
lemma nodup_nz_of_validPartial {b : Board} (cells : List (Fin 9 × Fin 9))
    (hnd : cells.Nodup)
    (hsu : ∀ p ∈ cells, ∀ q ∈ cells, sameUnit p q) (hb : ValidPartial b) :
    (nzList (cells.map (fun p => b p.1 p.2))).Nodup := by
  rw [nzList, List.filter_map]
  apply List.Nodup.map_on
  · intro p hp q hq heq
    rw [List.mem_filter] at hp hq
    by_contra hne
    have hnz : b p.1 p.2 ≠ 0 := by
      have := hp.2
      simp only [Function.comp, decide_eq_true_eq] at this
      omega
    exact hb p q (hsu p hp.1 q hq.1) hne hnz heq
  · exact hnd.filter _

/-- Conversely, on a board whose unit has duplicate-free non-zero digits,
two unit-sharing cells holding the same non-zero digit coincide. -/
lemma eq_of_nodup_nz {b : Board} {cells : List (Fin 9 × Fin 9)}
    (h : (nzList (cells.map (fun p => b p.1 p.2))).Nodup)
    {p q : Fin 9 × Fin 9} (hp : p ∈ cells) (hq : q ∈ cells)
    (hnz : b p.1 p.2 ≠ 0) (heq : b p.1 p.2 = b q.1 q.2) : p = q := by
  rw [nzList, List.filter_map] at h
  have hinj := List.inj_on_of_nodup_map h
  apply hinj
  · rw [List.mem_filter]
    exact ⟨hp, by simp only [Function.comp, decide_eq_true_eq]; omega⟩
  · rw [List.mem_filter]
    refine ⟨hq, ?_⟩
    simp only [Function.comp, decide_eq_true_eq]
    omega
  · exact heq

/-- The non-zero digits of every row, column, and block are duplicate-free. -/
def NodupUnits (b : Board) : Prop :=
  (∀ i : Fin 9, (nzList (rowVals b i)).Nodup) ∧
    (∀ i : Fin 9, (nzList (colVals b i)).Nodup) ∧
    (∀ br bc : Fin 3, (nzList (blockVals b br bc)).Nodup)

lemma nodup_rowCellList : ∀ i : Fin 9, (rowCellList i).Nodup := by decide

lemma nodup_colCellList : ∀ i : Fin 9, (colCellList i).Nodup := by decide

lemma nodup_blockCellList : ∀ br bc : Fin 3, (blockCellList br bc).Nodup := by
  decide

lemma sameUnit_rowCellList :
    ∀ i : Fin 9, ∀ p ∈ rowCellList i, ∀ q ∈ rowCellList i, sameUnit p q := by
  decide

lemma sameUnit_colCellList :
    ∀ i : Fin 9, ∀ p ∈ colCellList i, ∀ q ∈ colCellList i, sameUnit p q := by
  decide

lemma sameUnit_blockCellList :
    ∀ br bc : Fin 3, ∀ p ∈ blockCellList br bc, ∀ q ∈ blockCellList br bc,
      sameUnit p q := by
  decide

lemma mem_blockCellList_iff :
    ∀ (p : Fin 9 × Fin 9) (br bc : Fin 3),
      p ∈ blockCellList br bc ↔ (p.1.val / 3 = br.val ∧ p.2.val / 3 = bc.val) := by
  decide

lemma validPartial_iff_nodupUnits (b : Board) :
    ValidPartial b ↔ NodupUnits b := by
  constructor
  · intro hb
    refine ⟨fun i => ?_, fun i => ?_, fun br bc => ?_⟩
    · rw [rowVals_eq_map]
      exact nodup_nz_of_validPartial _ (nodup_rowCellList i)
        (sameUnit_rowCellList i) hb
    · rw [colVals_eq_map]
      exact nodup_nz_of_validPartial _ (nodup_colCellList i)
        (sameUnit_colCellList i) hb
    · rw [blockVals_eq_map]
      exact nodup_nz_of_validPartial _ (nodup_blockCellList br bc)
        (sameUnit_blockCellList br bc) hb
  · rintro ⟨hrow, hcol, hblk⟩ p q hsu hne hnz heq
    rcases hsu with h | h | ⟨h1, h2⟩
    · have hrw := hrow p.1
      rw [rowVals_eq_map] at hrw
      refine hne (eq_of_nodup_nz hrw ?_ ?_ hnz heq)
      · rw [rowCellList, List.mem_map]
        exact ⟨p.2, List.mem_finRange _, rfl⟩
      · rw [rowCellList, List.mem_map]
        exact ⟨q.2, List.mem_finRange _, Prod.ext h rfl⟩
    · have hcw := hcol p.2
      rw [colVals_eq_map] at hcw
      refine hne (eq_of_nodup_nz hcw ?_ ?_ hnz heq)
      · rw [colCellList, List.mem_map]
        exact ⟨p.1, List.mem_finRange _, rfl⟩
      · rw [colCellList, List.mem_map]
        exact ⟨q.1, List.mem_finRange _, Prod.ext rfl h⟩
    · have hbw := hblk ⟨p.1.val / 3, by omega⟩ ⟨p.2.val / 3, by omega⟩
      rw [blockVals_eq_map] at hbw
      refine hne (eq_of_nodup_nz hbw ?_ ?_ hnz heq)
      · rw [mem_blockCellList_iff]
        exact ⟨rfl, rfl⟩
      · rw [mem_blockCellList_iff]
        exact ⟨by simp only; omega, by simp only; omega⟩

lemma addConflicts_nil (g : Nat → Finset (Fin 9 × Fin 9))
    (acc : Finset (Fin 9 × Fin 9)) : addConflicts g [] acc = acc := rfl

lemma subset_addConflicts (g : Nat → Finset (Fin 9 × Fin 9)) (ds : List Nat)
    (acc : Finset (Fin 9 × Fin 9)) : acc ⊆ addConflicts g ds acc := by
  induction ds generalizing acc with
  | nil => exact fun x hx => hx
  | cons d ds ih =>
    rw [addConflicts, List.foldl_cons]
    exact fun x hx => ih (acc ∪ g d) (Finset.mem_union_left _ hx)

lemma mem_addConflicts_of {g : Nat → Finset (Fin 9 × Fin 9)} {ds : List Nat}
    {num : Nat} {x : Fin 9 × Fin 9} (hd : num ∈ ds) (hx : x ∈ g num)
    (acc : Finset (Fin 9 × Fin 9)) : x ∈ addConflicts g ds acc := by
  induction ds generalizing acc with
  | nil => cases hd
  | cons d ds ih =>
    rw [addConflicts, List.foldl_cons]
    rcases List.mem_cons.mp hd with rfl | hd2
    · exact subset_addConflicts g ds _ (Finset.mem_union_right _ hx)
    · exact ih hd2 _

lemma fcRowCol_ok_of_nodup {b : Board}
    (hrow : ∀ i : Fin 9, (nzList (rowVals b i)).Nodup)
    (hcol : ∀ i : Fin 9, (nzList (colVals b i)).Nodup) :
    ∀ (is : List (Fin 9)) (acc : Finset (Fin 9 × Fin 9)),
      fcRowCol b is acc = Except.ok acc := by
  intro is
  induction is with
  | nil => intro acc; rfl
  | cons i is ih =>
    intro acc
    rw [fcRowCol, unitDuplicatesRC_of_nodup (hrow i),
      unitDuplicatesRC_of_nodup (hcol i)]
    exact ih acc

lemma fcBlocks_of_nodup {b : Board}
    (hblk : ∀ br bc : Fin 3, (nzList (blockVals b br bc)).Nodup) :
    ∀ (ps : List (Fin 3 × Fin 3)) (acc : Finset (Fin 9 × Fin 9)),
      fcBlocks b ps acc = acc := by
  intro ps
  induction ps with
  | nil => intro acc; rfl
  | cons p ps ih =>
    intro acc
    rcases p with ⟨br, bc⟩
    rw [fcBlocks, unitDuplicatesBlock_of_nodup (hblk br bc), addConflicts_nil]
    exact ih acc

lemma fcRowCol_ok_nodup {b : Board} :
    ∀ (is : List (Fin 9)) (acc acc2 : Finset (Fin 9 × Fin 9)),
      fcRowCol b is acc = Except.ok acc2 →
      ∀ i ∈ is, (nzList (rowVals b i)).Nodup ∧ (nzList (colVals b i)).Nodup := by
  intro is
  induction is with
  | nil => intro _ _ _ i hi; cases hi
  | cons i is ih =>
    intro acc acc2 hok j hj
    rw [fcRowCol] at hok
    by_cases hr : (nzList (rowVals b i)).Nodup
    · rw [unitDuplicatesRC_of_nodup hr] at hok
      by_cases hc : (nzList (colVals b i)).Nodup
      · rw [unitDuplicatesRC_of_nodup hc] at hok
        rcases List.mem_cons.mp hj with rfl | hj2
        · exact ⟨hr, hc⟩
        · exact ih _ acc2 hok j hj2
      · rw [unitDuplicatesRC_of_not_nodup hc] at hok
        cases hok
    · rw [unitDuplicatesRC_of_not_nodup hr] at hok
      cases hok

lemma subset_fcBlocks (b : Board) :
    ∀ (ps : List (Fin 3 × Fin 3)) (acc : Finset (Fin 9 × Fin 9)),
      acc ⊆ fcBlocks b ps acc := by
  intro ps
  induction ps with
  | nil => intro acc x hx; exact hx
  | cons p ps ih =>
    intro acc x hx
    rcases p with ⟨br, bc⟩
    rw [fcBlocks]
    exact ih _ (subset_addConflicts _ _ _ hx)

lemma mem_fcBlocks_of_dup {b : Board} {br bc : Fin 3}
    (hdup : ¬(nzList (blockVals b br bc)).Nodup) :
    ∀ (ps : List (Fin 3 × Fin 3)), (br, bc) ∈ ps →
      ∀ acc : Finset (Fin 9 × Fin 9), (fcBlocks b ps acc).Nonempty := by
  obtain ⟨num, hnum, hcnt⟩ := unitDuplicatesBlock_of_not_nodup hdup
  have hmem : num ∈ blockVals b br bc := by
    have h0 : 0 < (nzList (blockVals b br bc)).count num := by omega
    have := List.count_pos_iff.mp h0
    rw [nzList, List.mem_filter] at this
    exact this.1
  obtain ⟨ij, hij⟩ : ∃ ij : Fin 3 × Fin 3,
      b (blockCell br bc ij.1 ij.2).1 (blockCell br bc ij.1 ij.2).2 = num := by
    rw [blockVals] at hmem
    simp only [List.mem_flatMap, List.mem_map] at hmem
    obtain ⟨i, -, j, -, hv⟩ := hmem
    exact ⟨(i, j), hv⟩
  have hcell : blockCell br bc ij.1 ij.2 ∈ blockConflictCells b br bc num := by
    rw [blockConflictCells, Finset.mem_image]
    exact ⟨ij, Finset.mem_filter.mpr ⟨Finset.mem_univ _, hij⟩, rfl⟩
  intro ps
  induction ps with
  | nil => intro h; cases h
  | cons p ps ih =>
    intro hps acc
    rcases List.mem_cons.mp hps with rfl | hps2
    · rw [fcBlocks]
      exact ⟨_, subset_fcBlocks b ps _ (mem_addConflicts_of hnum hcell _)⟩
    · rcases p with ⟨br2, bc2⟩
      rw [fcBlocks]
      exact ih hps2 _

lemma mem_blockPairList : ∀ p : Fin 3 × Fin 3, p ∈ blockPairList := by decide

/-- `find_conflicts` returns the empty set (rather than raising or reporting
conflicts) exactly on duplicate-free boards. -/
lemma find_conflicts_ok_empty_iff (b : Board) :
    find_conflicts b = Except.ok ∅ ↔ ValidPartial b := by
  constructor
  · intro h
    rw [find_conflicts] at h
    rcases hrc : fcRowCol b (List.finRange 9) ∅ with e | acc
    · rw [hrc] at h; cases h
    · rw [hrc] at h
      have hblocks : fcBlocks b blockPairList acc = ∅ := by
        injection h
      rw [validPartial_iff_nodupUnits]
      have hunits := fcRowCol_ok_nodup _ _ _ hrc
      refine ⟨fun i => (hunits i (List.mem_finRange i)).1,
        fun i => (hunits i (List.mem_finRange i)).2, fun br bc => ?_⟩
      by_contra hdup
      have := mem_fcBlocks_of_dup hdup blockPairList
        (mem_blockPairList (br, bc)) acc
      rw [hblocks] at this
      exact Finset.not_nonempty_empty this
  · intro h
    rw [validPartial_iff_nodupUnits] at h
    obtain ⟨hrow, hcol, hblk⟩ := h
    rw [find_conflicts, fcRowCol_ok_of_nodup hrow hcol]
    dsimp only
    rw [fcBlocks_of_nodup hblk]

/-! ## Claim C5: `solve_sudoku` returning `True` -/

/-- A full Latin square that is *not* a valid sudoku grid: rows and columns
are duplicate-free but the 3x3 blocks are not. -/
def latinBoard : Board := fun r c => (r.val + c.val) % 9 + 1

/-- Counterexample to claim C5 as stated: on a full board with pre-existing
block conflicts, `solve_sudoku` returns `True` immediately (there is no empty
cell), yet `find_conflicts` of the resulting board is not the empty set. -/
theorem solve_sudoku_true_c5_counterexample :
    (solve_sudoku 1 latinBoard digits19).1 = true ∧
      (solve_sudoku 1 latinBoard digits19).2 = latinBoard ∧
      find_conflicts latinBoard ≠ Except.ok ∅ := by
  refine ⟨by decide, by decide, by decide⟩

/-- Claim C5 as amended: for a board with no pre-existing conflicts
(`find_conflicts` returns the empty set — the precondition the spec itself
imposes on solve calls in its error-handling section), a `True` return of
`solve_sudoku` guarantees a full and conflict-free result board. -/
theorem solve_sudoku_true_conflict_free (fuel : Nat) (b : Board)
    (nums : List Nat) (h0 : find_conflicts b = Except.ok ∅)
    (h : (solve_sudoku fuel b nums).1 = true) :
    (∀ r c : Fin 9, (solve_sudoku fuel b nums).2 r c ≠ 0) ∧
      find_conflicts (solve_sudoku fuel b nums).2 = Except.ok ∅ := by
  have hvp : ValidPartial b := (find_conflicts_ok_empty_iff b).mp h0
  have hmain := solve_sudoku_true_abstract nums ValidPartial
    (fun b2 r c n _ hP _ hv => validPartial_setCell hP hv) fuel b hvp h
  exact ⟨hmain.2, (find_conflicts_ok_empty_iff _).mpr hmain.1⟩

/-- The canonical solved grid of the repository's test fixtures. -/
def solvedBoard : Board := mkBoard [
  [5, 3, 4, 6, 7, 8, 9, 1, 2],
  [6, 7, 2, 1, 9, 5, 3, 4, 8],
  [1, 9, 8, 3, 4, 2, 5, 6, 7],
  [8, 5, 9, 7, 6, 1, 4, 2, 3],
  [4, 2, 6, 8, 5, 3, 7, 9, 1],
  [7, 1, 3, 9, 2, 4, 8, 5, 6],
  [9, 6, 1, 5, 3, 7, 2, 8, 4],
  [2, 8, 7, 4, 1, 9, 6, 3, 5],
  [3, 4, 5, 2, 8, 6, 1, 7, 9]]

/-- Witness for the amended C5 at the canonical solved grid. -/
theorem solve_sudoku_true_conflict_free_witness :
    (find_conflicts solvedBoard = Except.ok ∅ ∧
        (solve_sudoku 1 solvedBoard digits19).1 = true) ∧
      ((∀ r c : Fin 9, (solve_sudoku 1 solvedBoard digits19).2 r c ≠ 0) ∧
        find_conflicts (solve_sudoku 1 solvedBoard digits19).2 = Except.ok ∅) :=
  ⟨⟨by decide, by decide⟩,
    solve_sudoku_true_conflict_free 1 solvedBoard digits19 (by decide) (by decide)⟩

/-! ## Counting completions: the mathematical meaning of `count_solutions` -/

/-- A fully assigned grid, cell values encoded as `Fin 9` (digit minus 1). -/
def Grid := Fin 9 → Fin 9 → Fin 9

instance : Fintype Grid := by unfold Grid; infer_instance

instance : DecidableEq Grid := by unfold Grid; infer_instance

/-- The board described by a full grid (digits 1-9 everywhere). -/
def toBoard (g : Grid) : Board := fun r c => (g r c).val + 1

instance (b : Board) : Decidable (ValidPartial b) := by
  unfold ValidPartial; infer_instance

/-- `g` is a valid full assignment extending the non-zero cells of `b`. -/
def isCompletion (b : Board) (g : Grid) : Prop :=
  (∀ r c : Fin 9, b r c ≠ 0 → toBoard g r c = b r c) ∧ ValidPartial (toBoard g)

instance (b : Board) (g : Grid) : Decidable (isCompletion b g) := by
  unfold isCompletion; infer_instance

/-- The number of distinct full valid assignments extending the non-zero
cells of `b` (the `N` of claim C3). -/
def numCompletions (b : Board) : Nat :=
  (Finset.univ.filter (fun g : Grid => isCompletion b g)).card

lemma toBoard_ne_zero (g : Grid) (r c : Fin 9) : toBoard g r c ≠ 0 := by
  simp [toBoard]

/-- A completion of `b` can only put, at an empty cell, a digit that
`is_valid` accepts on `b`. -/
lemma isCompletion_is_valid {b : Board} {g : Grid} (hg : isCompletion b g)
    {r c : Fin 9} (hcell : b r c = 0) :
    is_valid b r c ((g r c).val + 1) = true := by
  rw [is_valid_iff]
  intro p hsu hbp
  have hpnz : b p.1 p.2 ≠ 0 := by rw [hbp]; omega
  have hpne : p ≠ (r, c) := by
    intro h; rw [h] at hpnz; exact hpnz hcell
  have hag : toBoard g p.1 p.2 = b p.1 p.2 := hg.1 p.1 p.2 hpnz
  have := hg.2 (r, c) p hsu (Ne.symm hpne) (toBoard_ne_zero g r c)
  apply this
  rw [hag, hbp]
  rfl

/-- Completions of the board with digit `d+1` placed at the empty cell
`(r, c)` are exactly the completions of `b` assigning `d` there. -/
lemma isCompletion_setCell_iff {b : Board} {r c : Fin 9} (hcell : b r c = 0)
    (d : Fin 9) (g : Grid) :
    isCompletion (setCell b r c (d.val + 1)) g ↔ isCompletion b g ∧ g r c = d := by
  constructor
  · rintro ⟨hext, hval⟩
    have hrc : g r c = d := by
      have := hext r c (by rw [setCell_same]; omega)
      rw [setCell_same] at this
      apply Fin.ext
      have : (g r c).val + 1 = d.val + 1 := this
      omega
    refine ⟨⟨fun r2 c2 hnz => ?_, hval⟩, hrc⟩
    have hne : ¬(r2 = r ∧ c2 = c) := by
      rintro ⟨rfl, rfl⟩; exact hnz hcell
    have := hext r2 c2 (by rw [setCell_of_ne _ _ _ _ _ _ hne]; exact hnz)
    rwa [setCell_of_ne _ _ _ _ _ _ hne] at this
  · rintro ⟨⟨hext, hval⟩, hrc⟩
    refine ⟨fun r2 c2 hnz => ?_, hval⟩
    by_cases hne : r2 = r ∧ c2 = c
    · obtain ⟨rfl, rfl⟩ := hne
      rw [setCell_same, toBoard, hrc]
    · rw [setCell_of_ne _ _ _ _ _ _ hne] at hnz ⊢
      exact hext r2 c2 hnz

/-- The completion-count recurrence at an empty cell: completions split by
the digit they assign there, and only `is_valid` digits contribute. -/
lemma numCompletions_rec {b : Board} {r c : Fin 9} (hcell : b r c = 0) :
    numCompletions b =
      ∑ d : Fin 9, (if is_valid b r c (d.val + 1) then
        numCompletions (setCell b r c (d.val + 1)) else 0) := by
  rw [numCompletions]
  rw [Finset.card_eq_sum_card_fiberwise
    (f := fun g : Grid => g r c) (t := Finset.univ) (fun x _ => Finset.mem_univ _)]
  apply Finset.sum_congr rfl
  intro d _
  rw [Finset.filter_filter]
  by_cases hv : is_valid b r c (d.val + 1)
  · rw [if_pos hv, numCompletions]
    apply congrArg Finset.card
    ext g
    simp only [Finset.mem_filter, Finset.mem_univ, true_and]
    rw [isCompletion_setCell_iff hcell d g]
  · rw [if_neg hv]
    rw [Finset.card_eq_zero]
    rw [Finset.filter_eq_empty_iff]
    rintro g - ⟨hg, hrc⟩
    exact hv (by rw [← hrc]; exact isCompletion_is_valid hg hcell)

/-- Total encoding of a full board as a grid. -/
def gEnc (b : Board) : Grid := fun r c => ⟨(b r c - 1) % 9, Nat.mod_lt _ (by omega)⟩

lemma toBoard_gEnc {b : Board} (hf : FullB b) (h9 : ValsLe9 b) :
    toBoard (gEnc b) = b := by
  funext r c
  have h1 := hf r c
  have h2 := h9 r c
  simp only [toBoard, gEnc]
  omega

/-- The completion set of a full duplicate-free board is the singleton of
its own encoding. -/
lemma completions_full_eq {b : Board} (hf : FullB b) (h9 : ValsLe9 b)
    (hv : ValidPartial b) :
    Finset.univ.filter (fun g : Grid => isCompletion b g) = {gEnc b} := by
  ext g
  simp only [Finset.mem_filter, Finset.mem_univ, true_and, Finset.mem_singleton]
  constructor
  · intro hg
    funext r c
    have hag := hg.1 r c (hf r c)
    have h1 := hf r c
    have h2 := h9 r c
    apply Fin.ext
    simp only [toBoard] at hag
    simp only [gEnc]
    omega
  · rintro rfl
    have hvp2 : ValidPartial (toBoard (gEnc b)) := by
      rw [toBoard_gEnc hf h9]; exact hv
    exact ⟨fun r c _ => by rw [toBoard_gEnc hf h9], hvp2⟩

/-- A full duplicate-free board has exactly one completion: itself. -/
lemma numCompletions_full {b : Board} (hf : FullB b) (h9 : ValsLe9 b)
    (hv : ValidPartial b) : numCompletions b = 1 := by
  rw [numCompletions, completions_full_eq hf h9 hv]
  exact Finset.card_singleton _

/-! ## Claim C3: `count_solutions` returns `min(limit, N)` -/

instance (b : Board) : Decidable (ValsLe9 b) := by
  unfold ValsLe9; infer_instance

lemma digits19_eq : digits19 = [1, 2, 3, 4, 5, 6, 7, 8, 9] := rfl

lemma digits19_map_sum (F : Nat → Nat) :
    (digits19.map F).sum = ∑ d : Fin 9, F (d.val + 1) := by
  rw [digits19_eq]
  simp [Fin.sum_univ_succ]

lemma digits19_bounds : ∀ n ∈ digits19, 1 ≤ n ∧ n ≤ 9 := by decide

/-- The digit loop of the counter computes the `limit`-truncated sum of the
completion counts of the child boards. -/
lemma countLoop_min (limit fuel : Nat) (r c : Fin 9) (b : Board)
    (hvp : ValidPartial b) (h9 : ValsLe9 b) (hcell : b r c = 0)
    (hfuel : emptyCount b ≤ fuel)
    (IH : ∀ b2 cnt2, ValidPartial b2 → ValsLe9 b2 → emptyCount b2 < fuel →
      cnt2 ≤ limit →
      countHelper limit fuel b2 cnt2 = min limit (cnt2 + numCompletions b2)) :
    ∀ (ns : List Nat) (cnt : Nat), cnt ≤ limit →
      (∀ n ∈ ns, 1 ≤ n ∧ n ≤ 9) →
      countLoop limit (countHelper limit fuel) r c ns b cnt =
        min limit (cnt + (ns.map (fun n => if is_valid b r c n then
          numCompletions (setCell b r c n) else 0)).sum) := by
  intro ns
  induction ns with
  | nil =>
    intro cnt hc _
    rw [countLoop]
    simp only [List.map_nil, List.sum_nil, Nat.add_zero]
    omega
  | cons n ns ih =>
    intro cnt hc hd
    rw [countLoop]
    simp only [List.map_cons, List.sum_cons]
    by_cases hval : is_valid b r c n = true
    · rw [if_pos hval, if_pos hval]
      have h1 : ValidPartial (setCell b r c n) := validPartial_setCell hvp hval
      have h2 : ValsLe9 (setCell b r c n) := valsLe9_setCell h9 (hd n (by simp)).2
      have h3 : emptyCount (setCell b r c n) < fuel :=
        lt_of_lt_of_le
          (emptyCount_setCell_lt hcell
            (by have := (hd n (by simp)).1; omega)) hfuel
      have hrec := IH _ cnt h1 h2 h3 hc
      rw [hrec]
      by_cases hlim : limit ≤ min limit (cnt + numCompletions (setCell b r c n))
      · rw [if_pos hlim]
        omega
      · rw [if_neg hlim]
        have hle : min limit (cnt + numCompletions (setCell b r c n)) ≤ limit := by
          omega
        rw [ih _ hle (fun m hm => hd m (by simp [hm]))]
        omega
    · rw [if_neg hval, if_neg hval]
      rw [ih cnt hc (fun m hm => hd m (by simp [hm]))]
      omega

/-- The counting helper computes `min(limit, cnt + N)` on duplicate-free
boards with enough fuel. -/
lemma countHelper_min (limit : Nat) :
    ∀ (fuel : Nat) (b : Board) (cnt : Nat), ValidPartial b → ValsLe9 b →
      emptyCount b < fuel → cnt ≤ limit →
      countHelper limit fuel b cnt = min limit (cnt + numCompletions b) := by
  intro fuel
  induction fuel with
  | zero => intro b cnt _ _ h _; omega
  | succ fuel IH =>
    intro b cnt hvp h9 hfe hc
    rw [countHelper]
    by_cases hl : limit ≤ cnt
    · rw [if_pos hl]
      omega
    · rw [if_neg hl]
      rcases hfemp : find_empty_cell b with _ | ⟨r, c⟩
      · dsimp only
        have hfull : FullB b := fun r2 c2 => find_empty_cell_none hfemp r2 c2
        rw [numCompletions_full hfull h9 hvp]
        omega
      · dsimp only
        have hcell := find_empty_cell_some hfemp
        rw [countLoop_min limit fuel r c b hvp h9 hcell (by omega)
          (fun b2 cnt2 p1 p2 p3 p4 => IH b2 cnt2 p1 p2 p3 p4)
          digits19 cnt (by omega) digits19_bounds]
        have hsum : (digits19.map (fun n => if is_valid b r c n then
            numCompletions (setCell b r c n) else 0)).sum = numCompletions b := by
          rw [digits19_map_sum, ← numCompletions_rec hcell]
        rw [hsum]

/-- Claim C3: on a board with no conflicts (and the data-model invariant
that all stored values are at most 9), `count_solutions(B, L)` returns
`min(L, N)`, `N` being the number of distinct full valid assignments
extending the non-zero cells of `B`.  The embedding fixes the digit order
1-9, so the result is deterministic by construction. -/
theorem count_solutions_eq_min (b : Board) (L : Nat) (h9 : ValsLe9 b)
    (hc : find_conflicts b = Except.ok ∅) (hL : 1 ≤ L) :
    count_solutions b L = min L (numCompletions b) := by
  have hvp := (find_conflicts_ok_empty_iff b).mp hc
  have h := countHelper_min L 82 b 0 hvp h9
    (lt_of_le_of_lt (emptyCount_le_81 b) (by omega)) (by omega)
  rw [count_solutions, h, Nat.zero_add]

/-- Witness for C3 at the canonical solved grid with `limit = 2`. -/
theorem count_solutions_eq_min_witness :
    (ValsLe9 solvedBoard ∧ find_conflicts solvedBoard = Except.ok ∅ ∧
        (1 : Nat) ≤ 2) ∧
      count_solutions solvedBoard 2 = min 2 (numCompletions solvedBoard) :=
  ⟨⟨by decide, by decide, by decide⟩,
    count_solutions_eq_min solvedBoard 2 (by decide) (by decide) (by decide)⟩

/-! ## Completeness of the backtracking solver -/

/-- If some digit list entry leads to a solvable child (in particular the
digit a known completion assigns to the chosen cell), the digit loop
succeeds. -/
lemma solveLoop_complete (f : Board → Bool × Board) (r c : Fin 9) (b : Board)
    (hcell : b r c = 0)
    (hrestore : ∀ b0, (f b0).1 = false → (f b0).2 = b0)
    (m : Nat) (hmv : is_valid b r c m = true)
    (hchild : (f (setCell b r c m)).1 = true) :
    ∀ ns : List Nat, m ∈ ns → (solveLoop f r c ns b).1 = true := by
  intro ns
  induction ns generalizing b with
  | nil => intro h; cases h
  | cons n ns ih =>
    intro hm
    rw [solveLoop]
    by_cases heq : n = m
    · subst heq
      rw [if_pos hmv]
      rcases hres : f (setCell b r c n) with ⟨ok, b2⟩
      cases ok with
      | true => rfl
      | false => rw [hres] at hchild; cases hchild
    · have hm2 : m ∈ ns := by
        rcases List.mem_cons.mp hm with h | h
        · exact absurd h.symm heq
        · exact h
      by_cases hvn : is_valid b r c n = true
      · rw [if_pos hvn]
        rcases hres : f (setCell b r c n) with ⟨ok, b2⟩
        cases ok with
        | true => rfl
        | false =>
          have hb2 : b2 = setCell b r c n := by
            have := hrestore (setCell b r c n)
            rw [hres] at this; exact this rfl
          have hrw : setCell b2 r c 0 = b := by
            rw [hb2, setCell_setCell, setCell_eq_self b r c hcell]
          dsimp only
          rw [hrw]
          exact ih b hcell hmv hchild hm2
      · rw [if_neg hvn]
        exact ih b hcell hmv hchild hm2

/-- Completeness: `solve_sudoku` returns `True` on any board that has a
completion, provided the digit list covers 1-9 and the fuel exceeds the
number of empty cells. -/
lemma solve_sudoku_complete :
    ∀ (fuel : Nat) (b : Board) (nums : List Nat) (g : Grid),
      isCompletion b g → (∀ d : Nat, 1 ≤ d → d ≤ 9 → d ∈ nums) →
      emptyCount b < fuel → (solve_sudoku fuel b nums).1 = true := by
  intro fuel
  induction fuel with
  | zero => intro b nums g _ _ h; omega
  | succ fuel ih =>
    intro b nums g hg hnums hfe
    rw [solve_sudoku]
    rcases hfemp : find_empty_cell b with _ | ⟨r, c⟩
    · rfl
    · dsimp only
      have hcell := find_empty_cell_some hfemp
      have hval := isCompletion_is_valid hg hcell
      have hd9 := (g r c).isLt
      have hchild : (solve_sudoku fuel
          (setCell b r c ((g r c).val + 1)) nums).1 = true := by
        apply ih _ nums g ((isCompletion_setCell_iff hcell (g r c) g).mpr ⟨hg, rfl⟩)
          hnums
        have := emptyCount_setCell_lt hcell
          (n := (g r c).val + 1) (by omega)
        omega
      exact solveLoop_complete _ r c b hcell
        (fun b0 => solve_sudoku_false_restores fuel b0 nums)
        ((g r c).val + 1) hval hchild nums
        (hnums _ (by omega) (by omega))

/-! ## Claim C1: the puzzle generator (`src/sudoku_core.py`) -/

/-- Difficulty levels of the generator. -/
inductive Difficulty where
  | Easy : Difficulty
  | Medium : Difficulty
  | Hard : Difficulty

/-- `{'Easy': 40, 'Medium': 50, 'Hard': 60}` of `generate_puzzle`. -/
def cellsToRemove : Difficulty → Nat
  | .Easy => 40
  | .Medium => 50
  | .Hard => 60

/-- `random.shuffle` applied to `list(range(1, 10))`, the shuffle modelled
by the permutation it applies. -/
def shuffledDigits (σ : Equiv.Perm (Fin 9)) : List Nat :=
  (List.finRange 9).map (fun i => (σ i).val + 1)

lemma allCells_length : allCells.length = 81 := rfl

/-- `random.shuffle` applied to `[(r, c) for r in range(9) for c in range(9)]`. -/
def shuffledCells (τ : Equiv.Perm (Fin 81)) : List (Fin 9 × Fin 9) :=
  (List.finRange 81).map
    (fun i => allCells.get ⟨(τ i).val, by rw [allCells_length]; exact (τ i).isLt⟩)

lemma shuffledDigits_mem (σ : Equiv.Perm (Fin 9)) :
    ∀ d : Nat, 1 ≤ d → d ≤ 9 → d ∈ shuffledDigits σ := by
  intro d h1 h9
  rw [shuffledDigits, List.mem_map]
  refine ⟨σ.symm ⟨d - 1, by omega⟩, List.mem_finRange _, ?_⟩
  rw [Equiv.apply_symm_apply]
  show d - 1 + 1 = d
  omega

lemma shuffledDigits_le9 (σ : Equiv.Perm (Fin 9)) :
    ∀ n ∈ shuffledDigits σ, n ≤ 9 := by
  intro n hn
  rw [shuffledDigits, List.mem_map] at hn
  obtain ⟨i, -, hi⟩ := hn
  have := (σ i).isLt
  omega

lemma shuffledCells_length (τ : Equiv.Perm (Fin 81)) :
    (shuffledCells τ).length = 81 := by
  rw [shuffledCells, List.length_map, List.length_finRange]

/-- The removal phase of `generate_puzzle` in `src/sudoku_core.py`:
`filled_positions.pop()` visits the shuffled positions (the caller passes
them in pop order), each is tentatively cleared (`backup = board[row, col];
board[row, col] = 0`), uniqueness is tested with
`count_solutions(board.copy(), limit=2)`, and the digit is written back if
the test fails; the remaining-removals counter is decremented otherwise.
The loop ends when the counter or the position list is exhausted.  Besides
the final board, the embedding also returns the trace of board states at the
end of each iteration (instrumentation for the all-times-unique claim; the
Python mutates a single array through these same states). -/
def removal_loop : Board → List (Fin 9 × Fin 9) → Nat → Board × List Board
  | b, _, 0 => (b, [])
  | b, [], _ + 1 => (b, [])
  | b, (r, c) :: ps, t + 1 =>
    if count_solutions (setCell b r c 0) 2 ≠ 1 then
      ((removal_loop (setCell (setCell b r c 0) r c (b r c)) ps (t + 1)).1,
        setCell (setCell b r c 0) r c (b r c) ::
          (removal_loop (setCell (setCell b r c 0) r c (b r c)) ps (t + 1)).2)
    else
      ((removal_loop (setCell b r c 0) ps t).1,
        setCell b r c 0 :: (removal_loop (setCell b r c 0) ps t).2)

/-- `generate_puzzle(difficulty)` of `src/sudoku_core.py`: solve an empty
board with a shuffled digit order, then repeatedly pop shuffled positions
and clear them while uniqueness is preserved.  The two `random.shuffle`
calls are modelled by the permutations they apply; `.pop()` takes elements
from the end of the shuffled list, hence the `reverse`. -/
def generate_puzzle (d : Difficulty) (σ : Equiv.Perm (Fin 9))
    (τ : Equiv.Perm (Fin 81)) : Board × List Board :=
  removal_loop (solve_sudoku 82 emptyBoard (shuffledDigits σ)).2
    ((shuffledCells τ).reverse) (cellsToRemove d)

/-- Writing the backup value back restores the pre-clearing board. -/
lemma setCell_restore (b : Board) (r c : Fin 9) :
    setCell (setCell b r c 0) r c (b r c) = b := by
  rw [setCell_setCell]
  funext r2 c2
  by_cases h : r2 = r ∧ c2 = c
  · obtain ⟨rfl, rfl⟩ := h; rw [setCell_same]
  · rw [setCell_of_ne _ _ _ _ _ _ h]

/-- Clearing a cell cannot create a duplicate. -/
lemma validPartial_setZero {b : Board} (hb : ValidPartial b) (r c : Fin 9) :
    ValidPartial (setCell b r c 0) := by
  intro p q hsu hne hnz
  by_cases hp : p.1 = r ∧ p.2 = c
  · rw [setCell, if_pos hp] at hnz
    exact absurd rfl hnz
  · rw [setCell, if_neg hp] at hnz ⊢
    by_cases hq : q.1 = r ∧ q.2 = c
    · rw [setCell, if_pos hq]
      exact fun h => hnz h
    · rw [setCell, if_neg hq]
      exact hb p q hsu hne hnz

lemma valsLe9_setZero {b : Board} (hb : ValsLe9 b) (r c : Fin 9) :
    ValsLe9 (setCell b r c 0) := valsLe9_setCell hb (by omega)

/-- The number of filled cells. -/
def nonzeroCount (b : Board) : Nat :=
  (Finset.univ.filter (fun p : Fin 9 × Fin 9 => b p.1 p.2 ≠ 0)).card

lemma nonzeroCount_of_full {b : Board} (hf : FullB b) : nonzeroCount b = 81 := by
  rw [nonzeroCount]
  have huniv : (Finset.univ.filter
      (fun q : Fin 9 × Fin 9 => b q.1 q.2 ≠ 0)) = Finset.univ := by
    ext q
    simp [hf q.1 q.2]
  rw [huniv, Finset.card_univ]
  simp [Fintype.card_prod, Fintype.card_fin]

lemma nonzeroCount_setZero_filter (b : Board) (r c : Fin 9) :
    (Finset.univ.filter
        (fun p : Fin 9 × Fin 9 => setCell b r c 0 p.1 p.2 ≠ 0)) =
      (Finset.univ.filter (fun p : Fin 9 × Fin 9 => b p.1 p.2 ≠ 0)).erase (r, c) := by
  ext p
  simp only [Finset.mem_filter, Finset.mem_univ, true_and, Finset.mem_erase]
  constructor
  · intro hp
    by_cases h : p.1 = r ∧ p.2 = c
    · rw [setCell, if_pos h] at hp; exact absurd rfl hp
    · rw [setCell, if_neg h] at hp
      refine ⟨?_, hp⟩
      intro heq
      exact h ⟨by rw [heq], by rw [heq]⟩
  · rintro ⟨hne, hp⟩
    have h : ¬(p.1 = r ∧ p.2 = c) := by
      rintro ⟨h1, h2⟩
      exact hne (Prod.ext h1 h2)
    rw [setCell, if_neg h]
    exact hp

lemma nonzeroCount_setZero_le (b : Board) (r c : Fin 9) :
    nonzeroCount (setCell b r c 0) ≤ nonzeroCount b := by
  rw [nonzeroCount, nonzeroCount, nonzeroCount_setZero_filter]
  exact Finset.card_erase_le

lemma nonzeroCount_setZero_ge (b : Board) (r c : Fin 9) :
    nonzeroCount b - 1 ≤ nonzeroCount (setCell b r c 0) := by
  rw [nonzeroCount, nonzeroCount, nonzeroCount_setZero_filter]
  exact Finset.pred_card_le_card_erase

instance (b : Board) : Decidable (FullB b) := by
  unfold FullB; infer_instance

/-- Clearing one cell of a full duplicate-free board leaves exactly one
completion: the original board.  The cleared cell is forced because its row
already shows the other eight digits. -/
lemma completions_setZero_full_eq {b : Board} (hf : FullB b) (h9 : ValsLe9 b)
    (hv : ValidPartial b) (r c : Fin 9) :
    Finset.univ.filter (fun g : Grid => isCompletion (setCell b r c 0) g) =
      {gEnc b} := by
  ext g
  simp only [Finset.mem_filter, Finset.mem_univ, true_and, Finset.mem_singleton]
  constructor
  · intro hg
    have hag : ∀ p : Fin 9 × Fin 9, p ≠ (r, c) →
        toBoard g p.1 p.2 = b p.1 p.2 := by
      intro p hne
      have hns : ¬(p.1 = r ∧ p.2 = c) := by
        rintro ⟨h1, h2⟩; exact hne (Prod.ext h1 h2)
      have hnz2 : setCell b r c 0 p.1 p.2 ≠ 0 := by
        rw [setCell_of_ne _ _ _ _ _ _ hns]
        exact hf p.1 p.2
      have := hg.1 p.1 p.2 hnz2
      rwa [setCell_of_ne _ _ _ _ _ _ hns] at this
    have hinj : Function.Injective (fun c2 => g r c2) := by
      intro c1 c2 heq
      have heq2 : g r c1 = g r c2 := heq
      by_contra hne
      have hne2 : ((r, c1) : Fin 9 × Fin 9) ≠ (r, c2) := by
        intro h
        exact hne (congrArg Prod.snd h)
      have := hg.2 (r, c1) (r, c2) (Or.inl rfl) hne2 (toBoard_ne_zero g r c1)
      apply this
      show (g r c1).val + 1 = (g r c2).val + 1
      rw [heq2]
    obtain ⟨c2, hc2⟩ := Finite.injective_iff_surjective.mp hinj (gEnc b r c)
    have hc2b : g r c2 = gEnc b r c := hc2
    by_cases hcc : c2 = c
    · subst hcc
      funext r2 c3
      by_cases hp : (r2, c3) = ((r, c2) : Fin 9 × Fin 9)
      · rw [Prod.mk.injEq] at hp
        obtain ⟨rfl, rfl⟩ := hp
        exact hc2b
      · have hvals := hag (r2, c3) hp
        have h1 := hf r2 c3
        have h2 := h9 r2 c3
        apply Fin.ext
        simp only [toBoard] at hvals
        simp only [gEnc]
        omega
    · exfalso
      have hne2 : ((r, c2) : Fin 9 × Fin 9) ≠ (r, c) := by
        intro h
        exact hcc (congrArg Prod.snd h)
      have hagr := hag (r, c2) hne2
      have h1 := hf r c
      have h2 := h9 r c
      have hval : b r c2 = b r c := by
        have hx : (g r c2).val + 1 = b r c2 := hagr
        rw [hc2b] at hx
        simp only [gEnc] at hx
        omega
      exact hv (r, c2) (r, c) (Or.inl rfl) hne2 (hf r c2) hval
  · rintro rfl
    refine ⟨fun r2 c2 hnz => ?_, ?_⟩
    · by_cases h : r2 = r ∧ c2 = c
      · rw [setCell, if_pos h] at hnz
        exact absurd rfl hnz
      · rw [setCell_of_ne _ _ _ _ _ _ h]
        rw [toBoard_gEnc hf h9]
    · rw [toBoard_gEnc hf h9]
      exact hv

lemma numCompletions_setZero_full {b : Board} (hf : FullB b) (h9 : ValsLe9 b)
    (hv : ValidPartial b) (r c : Fin 9) :
    numCompletions (setCell b r c 0) = 1 := by
  rw [numCompletions, completions_setZero_full_eq hf h9 hv r c]
  exact Finset.card_singleton _

/-- A full duplicate-free board passes the uniqueness test. -/
lemma count_solutions_full_one {b : Board} (hf : FullB b) (h9 : ValsLe9 b)
    (hv : ValidPartial b) : count_solutions b 2 = 1 := by
  rw [count_solutions, countHelper_min 2 82 b 0 hv h9
    (lt_of_le_of_lt (emptyCount_le_81 b) (by omega)) (by omega),
    numCompletions_full hf h9 hv]
  decide

/-- A full duplicate-free board minus one cell still passes the uniqueness
test, so the first tentative removal is always accepted. -/
lemma count_solutions_setZero_one {b : Board} (hf : FullB b) (h9 : ValsLe9 b)
    (hv : ValidPartial b) (r c : Fin 9) :
    count_solutions (setCell b r c 0) 2 = 1 := by
  rw [count_solutions, countHelper_min 2 82 (setCell b r c 0) 0
    (validPartial_setZero hv r c) (valsLe9_setZero h9 r c)
    (lt_of_le_of_lt (emptyCount_le_81 _) (by omega)) (by omega),
    numCompletions_setZero_full hf h9 hv r c]
  decide

/-- Uniqueness is preserved throughout the removal phase: rejected removals
restore the previous (unique) board, accepted ones were just tested. -/
lemma removal_loop_unique : ∀ (ps : List (Fin 9 × Fin 9)) (b : Board) (t : Nat),
    count_solutions b 2 = 1 →
    count_solutions (removal_loop b ps t).1 2 = 1 ∧
      ∀ b2 ∈ (removal_loop b ps t).2, count_solutions b2 2 = 1 := by
  intro ps
  induction ps with
  | nil =>
    intro b t hcs
    cases t with
    | zero => exact ⟨hcs, fun b2 hb2 => by cases hb2⟩
    | succ t => exact ⟨hcs, fun b2 hb2 => by cases hb2⟩
  | cons p ps ih =>
    intro b t hcs
    cases t with
    | zero => exact ⟨hcs, fun b2 hb2 => by cases hb2⟩
    | succ t =>
      rcases p with ⟨r, c⟩
      rw [removal_loop]
      by_cases htest : count_solutions (setCell b r c 0) 2 ≠ 1
      · rw [if_pos htest, setCell_restore]
        refine ⟨(ih b (t + 1) hcs).1, ?_⟩
        intro b2 hb2
        rcases List.mem_cons.mp hb2 with rfl | h
        · exact hcs
        · exact (ih b (t + 1) hcs).2 b2 h
      · rw [if_neg htest]
        push_neg at htest
        refine ⟨(ih _ t htest).1, ?_⟩
        intro b2 hb2
        rcases List.mem_cons.mp hb2 with rfl | h
        · exact htest
        · exact (ih _ t htest).2 b2 h

/-- Each loop iteration clears at most one cell, and only while the
remaining-removals counter is positive. -/
lemma removal_loop_nonzero_ge : ∀ (ps : List (Fin 9 × Fin 9)) (b : Board) (t : Nat),
    nonzeroCount b - t ≤ nonzeroCount (removal_loop b ps t).1 := by
  intro ps
  induction ps with
  | nil => intro b t; cases t <;> (rw [removal_loop]; dsimp only; omega)
  | cons p ps ih =>
    intro b t
    cases t with
    | zero => rw [removal_loop]; dsimp only; omega
    | succ t =>
      rcases p with ⟨r, c⟩
      rw [removal_loop]
      by_cases htest : count_solutions (setCell b r c 0) 2 ≠ 1
      · rw [if_pos htest, setCell_restore]
        dsimp only
        have := ih b (t + 1)
        omega
      · rw [if_neg htest]
        dsimp only
        have h1 := ih (setCell b r c 0) t
        have h2 := nonzeroCount_setZero_ge b r c
        omega

/-- The removal phase never adds digits. -/
lemma removal_loop_nonzero_le : ∀ (ps : List (Fin 9 × Fin 9)) (b : Board) (t : Nat),
    nonzeroCount (removal_loop b ps t).1 ≤ nonzeroCount b := by
  intro ps
  induction ps with
  | nil => intro b t; cases t <;> rw [removal_loop]
  | cons p ps ih =>
    intro b t
    cases t with
    | zero => rw [removal_loop]
    | succ t =>
      rcases p with ⟨r, c⟩
      rw [removal_loop]
      by_cases htest : count_solutions (setCell b r c 0) 2 ≠ 1
      · rw [if_pos htest, setCell_restore]
        dsimp only
        exact ih b (t + 1)
      · rw [if_neg htest]
        dsimp only
        have h1 := ih (setCell b r c 0) t
        have h2 := nonzeroCount_setZero_le b r c
        omega

lemma nonzeroCount_setZero_of_mem {b : Board} {r c : Fin 9} (h : b r c ≠ 0) :
    nonzeroCount (setCell b r c 0) = nonzeroCount b - 1 := by
  rw [nonzeroCount, nonzeroCount, nonzeroCount_setZero_filter]
  rw [Finset.card_erase_of_mem]
  simp [h]

/-- Starting from a full duplicate-free board with a positive target, the
first removal is accepted, so at least one cell ends up cleared. -/
lemma removal_loop_cons_le80 {b : Board} (hf : FullB b) (h9 : ValsLe9 b)
    (hv : ValidPartial b) (r c : Fin 9) (ps : List (Fin 9 × Fin 9)) (t : Nat) :
    nonzeroCount (removal_loop b ((r, c) :: ps) (t + 1)).1 ≤ 80 := by
  rw [removal_loop]
  have htest := count_solutions_setZero_one hf h9 hv r c
  rw [if_neg (fun hne => hne htest)]
  dsimp only
  have hle := removal_loop_nonzero_le ps (setCell b r c 0) t
  have heq : nonzeroCount (setCell b r c 0) = 80 := by
    rw [nonzeroCount_setZero_of_mem (hf r c), nonzeroCount_of_full hf]
  omega

/-- Claim C1: for every difficulty and every pair of shuffles, the puzzle
produced by `generate_puzzle` (the `src/sudoku_core.py` copy, which fills an
empty board by randomized backtracking) has exactly one completion, between
1 and 80 filled cells, and every intermediate board of the removal phase
also has exactly one completion. -/
theorem generate_puzzle_unique (d : Difficulty) (σ : Equiv.Perm (Fin 9))
    (τ : Equiv.Perm (Fin 81)) :
    count_solutions (generate_puzzle d σ τ).1 2 = 1 ∧
      0 < nonzeroCount (generate_puzzle d σ τ).1 ∧
      nonzeroCount (generate_puzzle d σ τ).1 < 81 ∧
      ∀ b2 ∈ (generate_puzzle d σ τ).2, count_solutions b2 2 = 1 := by
  have hfulls : FullB solvedBoard := by decide
  have h9s : ValsLe9 solvedBoard := by decide
  have hvps : ValidPartial solvedBoard :=
    (find_conflicts_ok_empty_iff _).mp (by decide)
  have hcomp : isCompletion emptyBoard (gEnc solvedBoard) := by
    refine ⟨fun r c h => absurd rfl h, ?_⟩
    rw [toBoard_gEnc hfulls h9s]
    exact hvps
  have hsolve : (solve_sudoku 82 emptyBoard (shuffledDigits σ)).1 = true :=
    solve_sudoku_complete 82 emptyBoard (shuffledDigits σ) (gEnc solvedBoard)
      hcomp (shuffledDigits_mem σ)
      (lt_of_le_of_lt (emptyCount_le_81 _) (by omega))
  have habs := solve_sudoku_true_abstract (shuffledDigits σ)
    (fun bb => ValidPartial bb ∧ ValsLe9 bb)
    (fun bb r c n hn hPb hbc hval =>
      ⟨validPartial_setCell hPb.1 hval, valsLe9_setCell hPb.2 (shuffledDigits_le9 σ n hn)⟩)
    82 emptyBoard
    ⟨fun p q _ _ h => absurd rfl h, fun r c => Nat.zero_le _⟩ hsolve
  obtain ⟨⟨hvp1, h91⟩, hfull1⟩ := habs
  have hcs1 : count_solutions (solve_sudoku 82 emptyBoard (shuffledDigits σ)).2
      2 = 1 := count_solutions_full_one hfull1 h91 hvp1
  rw [generate_puzzle]
  have hun := removal_loop_unique ((shuffledCells τ).reverse)
    (solve_sudoku 82 emptyBoard (shuffledDigits σ)).2 (cellsToRemove d) hcs1
  refine ⟨hun.1, ?_, ?_, hun.2⟩
  · have hge := removal_loop_nonzero_ge ((shuffledCells τ).reverse)
      (solve_sudoku 82 emptyBoard (shuffledDigits σ)).2 (cellsToRemove d)
    have h81 : nonzeroCount (solve_sudoku 82 emptyBoard (shuffledDigits σ)).2 =
        81 := nonzeroCount_of_full hfull1
    have htle : cellsToRemove d ≤ 60 := by
      cases d <;> simp [cellsToRemove]
    omega
  · have hlen : ((shuffledCells τ).reverse).length = 81 := by
      rw [List.length_reverse, shuffledCells_length]
    rcases hpo : (shuffledCells τ).reverse with _ | ⟨⟨r, c⟩, ps⟩
    · rw [hpo] at hlen; cases hlen
    · obtain ⟨t2, ht2⟩ : ∃ t2, cellsToRemove d = t2 + 1 := by
        cases d <;> exact ⟨_, rfl⟩
      rw [ht2]
      have := removal_loop_cons_le80 hfull1 h91 hvp1 r c ps t2
      omega

/-! ## The AI solver (`src/src/sudoku/ai/sudoku_ai.py`) -/

/-- The technique labels of the step records (fixed strings in the source:
`'Naked Single'`, `'Hidden Single in Row/Column/Box'`,
`'Backtracking with MRV'`). -/
inductive Technique where
  | nakedSingle : Technique
  | hiddenRow : Technique
  | hiddenCol : Technique
  | hiddenBox : Technique
  | backtrackMRV : Technique
deriving DecidableEq

/-- A step record `(row, col, num, technique)` appended to `self.steps`. -/
structure Step where
  row : Fin 9
  col : Fin 9
  digit : Nat
  tech : Technique
deriving DecidableEq

/-- The mutable attributes of a `SudokuAI` object: the board, the
possibility-mask array, and the step log. -/
structure AIState where
  board : Board
  poss : Board
  steps : List Step
deriving DecidableEq

/-- `int.bit_length`, with the first argument as recursion fuel
(`bitLen n = bitLenAux n n` is exact, since the number of halvings of `n`
down to `0` never exceeds `n`). -/
def bitLenAux : Nat → Nat → Nat
  | 0, _ => 0
  | fuel + 1, n => if n = 0 then 0 else bitLenAux fuel (n / 2) + 1

/-- `int.bit_length`. -/
def bitLen (n : Nat) : Nat := bitLenAux n n

/-- `bin(n).count('1')`, with the same fuel device. -/
def popCountAux : Nat → Nat → Nat
  | 0, _ => 0
  | fuel + 1, n => if n = 0 then 0 else n % 2 + popCountAux fuel (n / 2)

/-- `bin(n).count('1')`. -/
def popCount (n : Nat) : Nat := popCountAux n n

/-- `used[board[row, :]] = True` etc. of `compute_cell_possibilities`:
digit `n` occurs in the row, the column, or the box of `(r, c)` (faithful
for the boards the source handles, whose values index the 10-slot `used`
array, i.e. values at most 9). -/
def usedDigit (b : Board) (r c : Fin 9) (n : Nat) : Bool :=
  decide (n ∈ rowVals b r) || decide (n ∈ colVals b c) ||
    decide (n ∈ boxVals b r c)

/-- `compute_cell_possibilities(row, col)`:
`sum(1 << (i - 1) for i in range(1, 10) if not used[i])`, indexed here by
`k = i - 1`. -/
def compute_cell_possibilities (b : Board) (r c : Fin 9) : Nat :=
  ((List.range 9).map (fun k => if usedDigit b r c (k + 1) then 0 else 2 ^ k)).sum

/-- `update_possibilities()` with no argument: recompute every cell of the
mask array from the board (filled cells get mask `0`). -/
def update_possibilities_all (b : Board) : Board :=
  fun r c => if b r c = 0 then compute_cell_possibilities b r c else 0

/-- `update_possibilities(affected_cells)`: recompute the listed cells only.
Each cell's new mask depends only on the board, so the iteration order of
the Python set argument is immaterial; the embedding uses a list. -/
def update_possibilities_cells (b : Board) (poss : Board)
    (cells : List (Fin 9 × Fin 9)) : Board :=
  cells.foldl
    (fun p cell =>
      setCell p cell.1 cell.2
        (if b cell.1 cell.2 = 0 then compute_cell_possibilities b cell.1 cell.2
         else 0))
    poss

/-- `get_affected_cells(row, col)`: the row, the column, and the box of the
changed cell (as a list; the Python set's duplicates and order do not affect
the resulting mask array). -/
def get_affected_cells (r c : Fin 9) : List (Fin 9 × Fin 9) :=
  rowCellList r ++ colCellList c ++
    blockCellList ⟨r.val / 3, by omega⟩ ⟨c.val / 3, by omega⟩

/-- `SudokuAI.__init__`: store the board, fill the mask array with `511`,
then immediately overwrite every entry via `update_possibilities()` — the
net effect embedded here directly. -/
def mkAI (b : Board) : AIState :=
  { board := b, poss := update_possibilities_all b, steps := [] }

/-- One iteration of the `for row, col in singles` loop of
`naked_singles`: read the *current* mask of the cell, place its
`bit_length` (which is `0` if the mask has meanwhile become empty), log the
step, and update the 21-cell neighbourhood. -/
def nakedStep (s : AIState) (cell : Fin 9 × Fin 9) : AIState :=
  { board := setCell s.board cell.1 cell.2 (bitLen (s.poss cell.1 cell.2)),
    poss := update_possibilities_cells
      (setCell s.board cell.1 cell.2 (bitLen (s.poss cell.1 cell.2)))
      s.poss (get_affected_cells cell.1 cell.2),
    steps := s.steps ++
      [⟨cell.1, cell.2, bitLen (s.poss cell.1 cell.2), Technique.nakedSingle⟩] }

/-- `naked_singles()`: collect (once, row-major, as `np.argwhere` does) the
cells whose mask is non-zero with a single bit set, then process them in
order; progress is reported iff the collected list was non-empty. -/
def naked_singles (s : AIState) : AIState × Bool :=
  ((allCells.filter (fun p =>
      !(s.poss p.1 p.2 == 0) &&
        (s.poss p.1 p.2 &&& (s.poss p.1 p.2 - 1) == 0))).foldl nakedStep s,
    !(allCells.filter (fun p =>
      !(s.poss p.1 p.2 == 0) &&
        (s.poss p.1 p.2 &&& (s.poss p.1 p.2 - 1) == 0))).isEmpty)

/-- `counts.setdefault(num, []).append((row, col))`: Python dicts preserve
insertion order, modelled as an association list to which new keys are
appended. -/
def addPos (l : List (Nat × List (Fin 9 × Fin 9))) (num : Nat)
    (p : Fin 9 × Fin 9) : List (Nat × List (Fin 9 × Fin 9)) :=
  match l with
  | [] => [(num, [p])]
  | (n2, ps) :: rest =>
    if n2 = num then (n2, ps ++ [p]) :: rest else (n2, ps) :: addPos rest num p

/-- The counts dictionary of one unit of `hidden_singles`: for each cell in
unit order and each digit 1-9 in order, record the cell under the digit if
the digit's bit is set in the cell's *current* mask. -/
def collectCounts (poss : Board) (cells : List (Fin 9 × Fin 9)) :
    List (Nat × List (Fin 9 × Fin 9)) :=
  cells.foldl
    (fun acc p =>
      (List.range 9).foldl
        (fun acc2 k =>
          if (poss p.1 p.2).testBit k then addPos acc2 (k + 1) p else acc2)
        acc)
    []

/-- A hidden-single placement: write the digit at `positions[0]`, log the
step with the unit's technique tag, and update the neighbourhood. -/
def hiddenPlace (t : Technique) (s : AIState)
    (entry : Nat × List (Fin 9 × Fin 9)) : AIState :=
  { board := setCell s.board (entry.2.headD (0, 0)).1 (entry.2.headD (0, 0)).2
      entry.1,
    poss := update_possibilities_cells
      (setCell s.board (entry.2.headD (0, 0)).1 (entry.2.headD (0, 0)).2
        entry.1)
      s.poss
      (get_affected_cells (entry.2.headD (0, 0)).1 (entry.2.headD (0, 0)).2),
    steps := s.steps ++
      [⟨(entry.2.headD (0, 0)).1, (entry.2.headD (0, 0)).2, entry.1, t⟩] }

/-- One unit of `hidden_singles`: build the counts dictionary from the
masks as they stand when the unit is reached, then place every digit whose
(pre-collected) position list has length one.  The Bool threads the
`progress` flag, which the source keeps across all 27 units of a pass. -/
def hiddenUnitPhase (t : Technique) (cells : List (Fin 9 × Fin 9))
    (sp : AIState × Bool) : AIState × Bool :=
  (collectCounts sp.1.poss cells).foldl
    (fun acc entry =>
      if entry.2.length = 1 then (hiddenPlace t acc.1 entry, true) else acc)
    sp

/-- One index of the `for idx in range(9)` loop of `hidden_singles`: row
`idx`, then column `idx`, then box `idx` (`start_row = 3 * (idx // 3)`,
`start_col = 3 * (idx % 3)`). -/
def hiddenIdxBody (acc : AIState × Bool) (idx : Fin 9) : AIState × Bool :=
  hiddenUnitPhase Technique.hiddenBox
    (blockCellList ⟨idx.val / 3, by omega⟩ ⟨idx.val % 3, by omega⟩)
    (hiddenUnitPhase Technique.hiddenCol (colCellList idx)
      (hiddenUnitPhase Technique.hiddenRow (rowCellList idx) acc))

/-- `hidden_singles()`. -/
def hidden_singles (s : AIState) : AIState × Bool :=
  (List.finRange 9).foldl hiddenIdxBody (s, false)

/-- `is_solved()`: `np.all(self.board != 0)`. -/
def is_solved (s : AIState) : Bool := decide (FullB s.board)

/-- `find_empty_cell_with_fewest_possibilities(board, possibilities)`:
row-major scan tracking the empty cell with the fewest set bits, returning
immediately once a one-candidate cell is seen. -/
def findFewest : List (Fin 9 × Fin 9) → Board → Board → Nat →
    Option (Fin 9 × Fin 9) → Option (Fin 9 × Fin 9)
  | [], _, _, _, best => best
  | p :: ps, b, poss, minOpt, best =>
    if b p.1 p.2 = 0 then
      if popCount (poss p.1 p.2) < minOpt then
        if popCount (poss p.1 p.2) = 1 then some p
        else findFewest ps b poss (popCount (poss p.1 p.2)) (some p)
      else findFewest ps b poss minOpt best
    else findFewest ps b poss minOpt best

/-- `find_empty_cell_with_fewest_possibilities` with the initial
`min_options = 10` and `min_cell = None`. -/
def find_empty_cell_with_fewest_possibilities (b poss : Board) :
    Option (Fin 9 × Fin 9) :=
  findFewest allCells b poss 10 none

/-- The `for num in nums` loop of `backtrack_solve`: place, log
`'Backtracking with MRV'`, update the neighbourhood, recurse; on failure
clear the cell and update the neighbourhood again before the next digit. -/
def btLoop (f : AIState → AIState × Bool) (r c : Fin 9) :
    List Nat → AIState → AIState × Bool
  | [], s => (s, false)
  | n :: ns, s =>
    match f { board := setCell s.board r c n,
              poss := update_possibilities_cells (setCell s.board r c n)
                s.poss (get_affected_cells r c),
              steps := s.steps ++ [⟨r, c, n, Technique.backtrackMRV⟩] } with
    | (s3, true) => (s3, true)
    | (s3, false) =>
      btLoop f r c ns
        { board := setCell s3.board r c 0,
          poss := update_possibilities_cells (setCell s3.board r c 0)
            s3.poss (get_affected_cells r c),
          steps := s3.steps }

/-- `backtrack_solve()`: full mask recompute, MRV cell choice, candidate
digits 1-9 filtered by the chosen cell's mask, then the backtracking loop.
`fuel` bounds the recursion depth as for `solve_sudoku`. -/
def backtrack_solve : Nat → AIState → AIState × Bool
  | 0, s => (s, false)
  | fuel + 1, s =>
    if is_solved s then (s, true)
    else
      match find_empty_cell_with_fewest_possibilities s.board
          (update_possibilities_all s.board) with
      | none => ({ s with poss := update_possibilities_all s.board }, false)
      | some (r, c) =>
        btLoop (backtrack_solve fuel) r c
          (digits19.filter
            (fun n => (update_possibilities_all s.board r c).testBit (n - 1)))
          { s with poss := update_possibilities_all s.board }

/-- `solve()`: alternate `naked_singles()` (always tried first; `or`
short-circuits) and `hidden_singles()` until neither makes progress, then
finish with `backtrack_solve()` if the board is still incomplete.  Each
progressing round fills at least one empty cell, so fuel beyond 81 is never
exhausted. -/
def solveAI : Nat → AIState → AIState × Bool
  | 0, s => (s, false)
  | fuel + 1, s =>
    if (naked_singles s).2 then solveAI fuel (naked_singles s).1
    else
      if (hidden_singles (naked_singles s).1).2 then
        solveAI fuel (hidden_singles (naked_singles s).1).1
      else
        if is_solved (hidden_singles (naked_singles s).1).1 then
          ((hidden_singles (naked_singles s).1).1, true)
        else backtrack_solve 82 (hidden_singles (naked_singles s).1).1

/-! ## Claim C7: the possibility-mask invariant -/

/-- The digit sum `sum(1 << j for j in range(m) if not f j)`. -/
def maskSum (f : Nat → Bool) (m : Nat) : Nat :=
  ((List.range m).map (fun j => if f j then 0 else 2 ^ j)).sum

lemma maskSum_lt (f : Nat → Bool) : ∀ m, maskSum f m < 2 ^ m := by
  intro m
  induction m with
  | zero => simp [maskSum]
  | succ m ih =>
    rw [maskSum, List.range_succ, List.map_append, List.sum_append]
    rw [show ((List.range m).map (fun j => if f j then 0 else 2 ^ j)).sum =
      maskSum f m from rfl]
    rw [pow_succ]
    simp only [List.map_cons, List.map_nil, List.sum_cons, List.sum_nil]
    by_cases h : f m <;> simp [h] <;> omega

lemma testBit_maskSum (f : Nat → Bool) :
    ∀ m k, k < m → (maskSum f m).testBit k = !f k := by
  intro m
  induction m with
  | zero => intro k hk; omega
  | succ m ih =>
    intro k hk
    rw [maskSum, List.range_succ, List.map_append, List.sum_append]
    rw [show ((List.range m).map (fun j => if f j then 0 else 2 ^ j)).sum =
      maskSum f m from rfl]
    simp only [List.map_cons, List.map_nil, List.sum_cons, List.sum_nil,
      Nat.add_zero]
    by_cases hkm : k < m
    · by_cases h : f m
      · rw [if_pos h, Nat.add_zero]
        exact ih k hkm
      · rw [if_neg h]
        have key : (maskSum f m + 2 ^ m) / 2 ^ k % 2 =
            maskSum f m / 2 ^ k % 2 := by
          have hsplit : (2 : Nat) ^ m = 2 ^ (m - k) * 2 ^ k := by
            rw [← pow_add]
            congr 1
            omega
          rw [hsplit, Nat.add_mul_div_right _ _ (Nat.two_pow_pos k)]
          have h2 : (2 : Nat) ^ (m - k) = 2 * 2 ^ (m - k - 1) := by
            rw [← pow_succ']
            congr 1
            omega
          rw [h2]
          omega
        rw [Nat.testBit_to_div_mod, key, ← Nat.testBit_to_div_mod]
        exact ih k hkm
    · have hk2 : k = m := by omega
      subst hk2
      by_cases h : f k
      · rw [if_pos h, Nat.add_zero]
        rw [Nat.testBit_lt_two_pow (maskSum_lt f k), h]
        rfl
      · rw [if_neg h]
        have key : (maskSum f k + 2 ^ k) / 2 ^ k % 2 = 1 := by
          have := maskSum_lt f k
          have hdiv : (maskSum f k + 2 ^ k) / 2 ^ k = 1 := by
            rw [show maskSum f k + 2 ^ k = maskSum f k + 1 * 2 ^ k by ring]
            rw [Nat.add_mul_div_right _ _ (Nat.two_pow_pos k)]
            rw [Nat.div_eq_of_lt this]
          rw [hdiv]
        rw [Bool.not_eq_true] at h
        rw [Nat.testBit_to_div_mod, key, h]
        rfl

/-- Digit `n` occurs in the row, the column, or the box of `(r, c)`. -/
def digitOccurs (b : Board) (r c : Fin 9) (n : Nat) : Prop :=
  (∃ c2, b r c2 = n) ∨ (∃ r2, b r2 c = n) ∨
    (∃ r2 c2 : Fin 9, r2.val / 3 = r.val / 3 ∧ c2.val / 3 = c.val / 3 ∧
      b r2 c2 = n)

lemma usedDigit_iff {b : Board} {r c : Fin 9} {n : Nat} :
    usedDigit b r c n = true ↔ digitOccurs b r c n := by
  rw [usedDigit, digitOccurs]
  simp only [Bool.or_eq_true, decide_eq_true_eq, mem_rowVals, mem_colVals,
    mem_boxVals]
  tauto

/-- Claim C7: after a full `update_possibilities()`, every filled cell has
mask `0`, and for every empty cell bit `k` of the mask is set exactly when
digit `k + 1` occurs nowhere in the cell's row, column, or box (stated for
boards satisfying the data-model invariant `value ≤ 9`, without which the
source's fancy indexing `used[board[...]]` would raise). -/
theorem update_possibilities_mask (b : Board) (_hb : ValsLe9 b)
    (r c : Fin 9) (k : Fin 9) :
    (b r c ≠ 0 → update_possibilities_all b r c = 0) ∧
      (b r c = 0 →
        ((update_possibilities_all b r c).testBit k.val = true ↔
          ¬digitOccurs b r c (k.val + 1))) := by
  constructor
  · intro h
    rw [update_possibilities_all, if_neg h]
  · intro h
    rw [update_possibilities_all, if_pos h]
    rw [show compute_cell_possibilities b r c =
      maskSum (fun j => usedDigit b r c (j + 1)) 9 from rfl]
    rw [testBit_maskSum _ 9 k.val k.isLt]
    simp only [Bool.not_eq_true']
    rw [Bool.eq_false_iff]
    exact not_congr usedDigit_iff

/-- Witness for C7 at the two-fives example board, cell `(0, 2)`, digit 5. -/
theorem update_possibilities_mask_witness :
    ValsLe9 c2Board ∧
      ((c2Board 0 2 ≠ 0 → update_possibilities_all c2Board 0 2 = 0) ∧
        (c2Board 0 2 = 0 →
          ((update_possibilities_all c2Board 0 2).testBit (4 : Fin 9).val =
              true ↔ ¬digitOccurs c2Board 0 2 ((4 : Fin 9).val + 1)))) :=
  ⟨by decide, update_possibilities_mask c2Board (by decide) 0 2 4⟩

/-! ## Claim C8: processing order within a hidden-singles pass -/

/-- The board used to refute the claimed rows-then-columns-then-boxes
order: column 0 holds a hidden single (9 at `(6, 0)`), found while
processing index 0, and row 1 holds a hidden single (7 at `(1, 5)`), found
only at index 1 — after the column step. -/
def cex8Board : Board := mkBoard [
  [],
  [1, 2, 3, 4, 5, 0, 6, 8, 9],
  [0, 9],
  [],
  [0, 0, 9],
  [],
  [],
  [0, 0, 0, 0, 0, 9],
  [0, 0, 0, 0, 0, 0, 9]]

/-- The ordering claim C8 asserts for the step records of one pass: all row
steps precede all column steps, which precede all box steps. -/
def claimC8Order (ts : List Technique) : Prop :=
  ts = ts.filter (fun t => decide (t = Technique.hiddenRow)) ++
      (ts.filter (fun t => decide (t = Technique.hiddenCol)) ++
        ts.filter (fun t => decide (t = Technique.hiddenBox)))

instance (ts : List Technique) : Decidable (claimC8Order ts) := by
  unfold claimC8Order; infer_instance

/-- Counterexample to C8 as stated: on `cex8Board` the pass appends a
`Hidden Single in Column` step (9 at `(6, 0)`, index 0) before a
`Hidden Single in Row` step (7 at `(1, 5)`, index 1), so the step records
are not ordered rows-then-columns-then-boxes. -/
theorem hidden_singles_order_counterexample :
    ¬claimC8Order ((hidden_singles (mkAI cex8Board)).1.steps.map Step.tech) := by
  decide

/-- The technique-tag words that `n` interleaved row/column/box rounds can
produce: each round contributes some row steps, then some column steps,
then some box steps. -/
inductive RoundsRCB : Nat → List Technique → Prop where
  | nil : RoundsRCB 0 []
  | step (n a b c : Nat) (w : List Technique) : RoundsRCB n w →
      RoundsRCB (n + 1)
        (List.replicate a Technique.hiddenRow ++
          (List.replicate b Technique.hiddenCol ++
            (List.replicate c Technique.hiddenBox ++ w)))

/-- The placement fold of one unit appends only steps carrying that unit's
tag. -/
lemma hiddenFold_steps (t : Technique) :
    ∀ (entries : List (Nat × List (Fin 9 × Fin 9))) (acc : AIState × Bool),
      ∃ l, ((entries.foldl (fun acc2 entry =>
          if entry.2.length = 1 then (hiddenPlace t acc2.1 entry, true)
          else acc2) acc).1).steps = acc.1.steps ++ l ∧
        ∀ st ∈ l, st.tech = t := by
  intro entries
  induction entries with
  | nil => intro acc; exact ⟨[], by simp, fun st h => by cases h⟩
  | cons e es ih =>
    intro acc
    rw [List.foldl_cons]
    by_cases hlen : e.2.length = 1
    · rw [if_pos hlen]
      obtain ⟨l2, hl2, ht2⟩ := ih (hiddenPlace t acc.1 e, true)
      refine ⟨⟨(e.2.headD (0, 0)).1, (e.2.headD (0, 0)).2, e.1, t⟩ :: l2, ?_, ?_⟩
      · rw [hl2]
        show (hiddenPlace t acc.1 e).steps ++ l2 = _
        rw [show (hiddenPlace t acc.1 e).steps = acc.1.steps ++
          [⟨(e.2.headD (0, 0)).1, (e.2.headD (0, 0)).2, e.1, t⟩] from rfl]
        simp
      · intro st hst
        rcases List.mem_cons.mp hst with rfl | h
        · rfl
        · exact ht2 st h
    · rw [if_neg hlen]
      exact ih acc

lemma hiddenUnitPhase_steps (t : Technique) (cells : List (Fin 9 × Fin 9))
    (sp : AIState × Bool) :
    ∃ l, (hiddenUnitPhase t cells sp).1.steps = sp.1.steps ++ l ∧
      ∀ st ∈ l, st.tech = t :=
  hiddenFold_steps t (collectCounts sp.1.poss cells) sp

lemma map_tech_replicate {t : Technique} {l : List Step}
    (h : ∀ st ∈ l, st.tech = t) :
    l.map Step.tech = List.replicate (l.map Step.tech).length t := by
  apply List.eq_replicate_of_mem
  intro x hx
  rw [List.mem_map] at hx
  obtain ⟨st, hst, rfl⟩ := hx
  exact h st hst

/-- The index fold produces one row/column/box round per index. -/
lemma hidden_fold_rounds :
    ∀ (idxs : List (Fin 9)) (acc : AIState × Bool),
      ∃ l, ((idxs.foldl hiddenIdxBody acc).1).steps = acc.1.steps ++ l ∧
        RoundsRCB idxs.length (l.map Step.tech) := by
  intro idxs
  induction idxs with
  | nil => intro acc; exact ⟨[], by simp, RoundsRCB.nil⟩
  | cons idx idxs ih =>
    intro acc
    rw [List.foldl_cons]
    obtain ⟨lr, hlr, htr⟩ := hiddenUnitPhase_steps Technique.hiddenRow
      (rowCellList idx) acc
    obtain ⟨lc, hlc, htc⟩ := hiddenUnitPhase_steps Technique.hiddenCol
      (colCellList idx)
      (hiddenUnitPhase Technique.hiddenRow (rowCellList idx) acc)
    obtain ⟨lb, hlb, htb⟩ := hiddenUnitPhase_steps Technique.hiddenBox
      (blockCellList ⟨idx.val / 3, by omega⟩ ⟨idx.val % 3, by omega⟩)
      (hiddenUnitPhase Technique.hiddenCol (colCellList idx)
        (hiddenUnitPhase Technique.hiddenRow (rowCellList idx) acc))
    obtain ⟨l2, hl2, hr2⟩ := ih (hiddenIdxBody acc idx)
    refine ⟨lr ++ (lc ++ (lb ++ l2)), ?_, ?_⟩
    · rw [hl2]
      rw [show hiddenIdxBody acc idx = hiddenUnitPhase Technique.hiddenBox
        (blockCellList ⟨idx.val / 3, by omega⟩ ⟨idx.val % 3, by omega⟩)
        (hiddenUnitPhase Technique.hiddenCol (colCellList idx)
          (hiddenUnitPhase Technique.hiddenRow (rowCellList idx) acc)) from rfl]
      rw [hlb, hlc, hlr]
      simp
    · rw [List.length_cons]
      rw [List.map_append, List.map_append, List.map_append]
      rw [map_tech_replicate htr, map_tech_replicate htc, map_tech_replicate htb]
      exact RoundsRCB.step idxs.length _ _ _ _ hr2

/-- Claim C8 as amended: within one `hidden_singles` pass the 27 units are
processed per index — row `idx`, then column `idx`, then box `idx`, for
`idx` from 0 to 8 — so the appended step records form nine consecutive
rounds, each consisting of row steps, then column steps, then box steps
(rather than all rows, then all columns, then all boxes).  Each placement
updates the masks of its 21-cell neighbourhood before any *later unit* is
scanned; the candidate lists of the unit currently being processed were
collected before its placements. -/
theorem hidden_singles_round_structure (s : AIState) :
    ∃ l, (hidden_singles s).1.steps = s.steps ++ l ∧
      RoundsRCB 9 (l.map Step.tech) := by
  obtain ⟨l, hl, hr⟩ := hidden_fold_rounds (List.finRange 9) (s, false)
  refine ⟨l, hl, ?_⟩
  rw [List.length_finRange] at hr
  exact hr

/-! ## Claim C10: digits of the recorded steps -/

/-- Every recorded step has digit at most 9, and only naked-single steps
may carry digit 0. -/
def StepsOK (l : List Step) : Prop :=
  ∀ st ∈ l, st.digit ≤ 9 ∧ (st.tech ≠ Technique.nakedSingle → 1 ≤ st.digit)

/-- The solver-state invariant: all masks fit in 9 bits and the log is
well-formed. -/
def AIInv (s : AIState) : Prop :=
  (∀ r c : Fin 9, s.poss r c < 512) ∧ StepsOK s.steps

lemma compute_cell_possibilities_lt (b : Board) (r c : Fin 9) :
    compute_cell_possibilities b r c < 512 :=
  maskSum_lt (fun j => usedDigit b r c (j + 1)) 9

lemma update_possibilities_all_lt (b : Board) (r c : Fin 9) :
    update_possibilities_all b r c < 512 := by
  rw [update_possibilities_all]
  by_cases h : b r c = 0
  · rw [if_pos h]; exact compute_cell_possibilities_lt b r c
  · rw [if_neg h]; omega

lemma setCell_lt {p : Board} (hp : ∀ r c : Fin 9, p r c < 512) {x y : Fin 9}
    {v : Nat} (hv : v < 512) : ∀ r c : Fin 9, setCell p x y v r c < 512 := by
  intro r c
  by_cases h : r = x ∧ c = y
  · rw [setCell, if_pos h]; exact hv
  · rw [setCell, if_neg h]; exact hp r c

lemma update_possibilities_cells_lt (b : Board) :
    ∀ (cells : List (Fin 9 × Fin 9)) (poss : Board),
      (∀ r c : Fin 9, poss r c < 512) →
      ∀ r c : Fin 9, update_possibilities_cells b poss cells r c < 512 := by
  intro cells
  induction cells with
  | nil => intro poss hp; exact hp
  | cons cell cells ih =>
    intro poss hp
    rw [update_possibilities_cells, List.foldl_cons]
    apply ih
    apply setCell_lt hp
    by_cases h : b cell.1 cell.2 = 0
    · rw [if_pos h]; exact compute_cell_possibilities_lt b cell.1 cell.2
    · rw [if_neg h]; omega

lemma bitLen_le9 {n : Nat} (hn : n < 512) : bitLen n ≤ 9 := by
  have h : ∀ m : Fin 512, bitLen m.val ≤ 9 := by decide
  exact h ⟨n, hn⟩

lemma stepsOK_append {l1 l2 : List Step} (h1 : StepsOK l1) (h2 : StepsOK l2) :
    StepsOK (l1 ++ l2) := by
  intro st hst
  rcases List.mem_append.mp hst with h | h
  · exact h1 st h
  · exact h2 st h

lemma nakedFold_inv :
    ∀ (cells : List (Fin 9 × Fin 9)) (s : AIState), AIInv s →
      AIInv (cells.foldl nakedStep s) := by
  intro cells
  induction cells with
  | nil => intro s h; exact h
  | cons cell cells ih =>
    intro s hs
    rw [List.foldl_cons]
    apply ih
    refine ⟨?_, ?_⟩
    · exact update_possibilities_cells_lt _ _ _ hs.1
    · apply stepsOK_append hs.2
      intro st hst
      rcases List.mem_cons.mp hst with rfl | h
      · exact ⟨bitLen_le9 (hs.1 cell.1 cell.2), fun h2 => absurd rfl h2⟩
      · cases h

lemma naked_singles_inv {s : AIState} (hs : AIInv s) :
    AIInv (naked_singles s).1 :=
  nakedFold_inv _ s hs

/-- All keys of the counts dictionary are digits 1-9. -/
def KeysOK (l : List (Nat × List (Fin 9 × Fin 9))) : Prop :=
  ∀ e ∈ l, 1 ≤ e.1 ∧ e.1 ≤ 9

lemma addPos_keys {l : List (Nat × List (Fin 9 × Fin 9))} {num : Nat}
    {p : Fin 9 × Fin 9} (hl : KeysOK l) (hn : 1 ≤ num ∧ num ≤ 9) :
    KeysOK (addPos l num p) := by
  induction l with
  | nil =>
    intro e he
    rcases List.mem_cons.mp he with rfl | h
    · exact hn
    · cases h
  | cons e2 rest ih =>
    rcases e2 with ⟨n2, ps⟩
    rw [addPos]
    by_cases h2 : n2 = num
    · rw [if_pos h2]
      intro e he
      rcases List.mem_cons.mp he with rfl | h
      · exact h2 ▸ hn
      · exact hl e (by simp [h])
    · rw [if_neg h2]
      intro e he
      rcases List.mem_cons.mp he with rfl | h
      · exact hl (n2, ps) (by simp)
      · exact ih (fun e3 he3 => hl e3 (by simp [he3])) e h

lemma collectCounts_keys (poss : Board) (cells : List (Fin 9 × Fin 9)) :
    KeysOK (collectCounts poss cells) := by
  rw [collectCounts]
  have inner : ∀ (p : Fin 9 × Fin 9) (ks : List Nat)
      (acc : List (Nat × List (Fin 9 × Fin 9))), (∀ k ∈ ks, k < 9) → KeysOK acc →
      KeysOK (ks.foldl (fun acc2 k =>
        if (poss p.1 p.2).testBit k then addPos acc2 (k + 1) p else acc2) acc) := by
    intro p ks
    induction ks with
    | nil => intro acc _ h; exact h
    | cons k ks ih =>
      intro acc hks h
      rw [List.foldl_cons]
      apply ih _ (fun k2 hk2 => hks k2 (by simp [hk2]))
      by_cases hb : (poss p.1 p.2).testBit k
      · rw [if_pos hb]
        exact addPos_keys h ⟨by omega, by have := hks k (by simp); omega⟩
      · rw [if_neg hb]; exact h
  have outer : ∀ (cs : List (Fin 9 × Fin 9))
      (acc : List (Nat × List (Fin 9 × Fin 9))), KeysOK acc →
      KeysOK (cs.foldl (fun acc p => (List.range 9).foldl
        (fun acc2 k =>
          if (poss p.1 p.2).testBit k then addPos acc2 (k + 1) p else acc2)
        acc) acc) := by
    intro cs
    induction cs with
    | nil => intro acc h; exact h
    | cons p cs ih =>
      intro acc h
      rw [List.foldl_cons]
      exact ih _ (inner p (List.range 9) acc
        (fun k hk => List.mem_range.mp hk) h)
  exact outer cells [] (fun e he => by cases he)

lemma hiddenUnitPhase_inv (t : Technique)
    (cells : List (Fin 9 × Fin 9)) (sp : AIState × Bool) (hs : AIInv sp.1) :
    AIInv (hiddenUnitPhase t cells sp).1 := by
  rw [hiddenUnitPhase]
  have hkeys := collectCounts_keys sp.1.poss cells
  revert hkeys
  generalize collectCounts sp.1.poss cells = entries
  intro hkeys
  induction entries generalizing sp with
  | nil => exact hs
  | cons e es ih =>
    rw [List.foldl_cons]
    by_cases hlen : e.2.length = 1
    · rw [if_pos hlen]
      apply ih (hiddenPlace t sp.1 e, true)
      · refine ⟨?_, ?_⟩
        · exact update_possibilities_cells_lt _ _ _ hs.1
        · apply stepsOK_append hs.2
          intro st hst
          rcases List.mem_cons.mp hst with rfl | h
          · have := hkeys e (by simp)
            exact ⟨this.2, fun _ => this.1⟩
          · cases h
      · exact fun e2 he2 => hkeys e2 (by simp [he2])
    · rw [if_neg hlen]
      exact ih sp hs (fun e2 he2 => hkeys e2 (by simp [he2]))

lemma hidden_singles_inv {s : AIState} (hs : AIInv s) :
    AIInv (hidden_singles s).1 := by
  rw [hidden_singles]
  have hgen : ∀ (idxs : List (Fin 9)) (acc : AIState × Bool), AIInv acc.1 →
      AIInv ((idxs.foldl hiddenIdxBody acc).1) := by
    intro idxs
    induction idxs with
    | nil => intro acc h; exact h
    | cons idx idxs ih =>
      intro acc h
      rw [List.foldl_cons]
      apply ih
      apply hiddenUnitPhase_inv
      apply hiddenUnitPhase_inv
      exact hiddenUnitPhase_inv _ _ _ h
  exact hgen (List.finRange 9) (s, false) hs

lemma btLoop_inv (f : AIState → AIState × Bool)
    (hf : ∀ s2, AIInv s2 → AIInv (f s2).1) (r c : Fin 9) :
    ∀ (ns : List Nat) (s : AIState), (∀ n ∈ ns, 1 ≤ n ∧ n ≤ 9) → AIInv s →
      AIInv (btLoop f r c ns s).1 := by
  intro ns
  induction ns with
  | nil => intro s _ hs; exact hs
  | cons n ns ih =>
    intro s hns hs
    rw [btLoop]
    have hinv1 : AIInv ⟨setCell s.board r c n,
        update_possibilities_cells (setCell s.board r c n)
          s.poss (get_affected_cells r c),
        s.steps ++ [⟨r, c, n, Technique.backtrackMRV⟩]⟩ := by
      refine ⟨update_possibilities_cells_lt _ _ _ hs.1, ?_⟩
      apply stepsOK_append hs.2
      intro st hst
      rcases List.mem_cons.mp hst with rfl | h
      · have := hns n (by simp)
        exact ⟨this.2, fun _ => this.1⟩
      · cases h
    rcases hres : f ⟨setCell s.board r c n,
        update_possibilities_cells (setCell s.board r c n)
          s.poss (get_affected_cells r c),
        s.steps ++ [⟨r, c, n, Technique.backtrackMRV⟩]⟩
      with ⟨s3, ok⟩
    have hinv3 : AIInv s3 := by
      have := hf _ hinv1
      rw [hres] at this
      exact this
    cases ok with
    | true => simp only [hres]; exact hinv3
    | false =>
      simp only [hres]
      apply ih _ (fun m hm => hns m (by simp [hm]))
      exact ⟨update_possibilities_cells_lt _ _ _ hinv3.1, hinv3.2⟩

lemma backtrack_solve_inv :
    ∀ (fuel : Nat) (s : AIState), AIInv s → AIInv (backtrack_solve fuel s).1 := by
  intro fuel
  induction fuel with
  | zero => intro s hs; exact hs
  | succ fuel ih =>
    intro s hs
    rw [backtrack_solve]
    by_cases hsolved : is_solved s
    · rw [if_pos hsolved]; exact hs
    · rw [if_neg hsolved]
      rcases hfind : find_empty_cell_with_fewest_possibilities s.board
          (update_possibilities_all s.board) with _ | ⟨r, c⟩
      · exact ⟨fun r c => update_possibilities_all_lt s.board r c, hs.2⟩
      · apply btLoop_inv _ (fun s2 h2 => ih s2 h2) r c
        · intro n hn
          have := List.mem_filter.mp hn
          exact digits19_bounds n this.1
        · exact ⟨fun r2 c2 => update_possibilities_all_lt s.board r2 c2, hs.2⟩

lemma solveAI_inv :
    ∀ (fuel : Nat) (s : AIState), AIInv s → AIInv (solveAI fuel s).1 := by
  intro fuel
  induction fuel with
  | zero => intro s hs; exact hs
  | succ fuel ih =>
    intro s hs
    rw [solveAI]
    by_cases h1 : (naked_singles s).2
    · rw [if_pos h1]
      exact ih _ (naked_singles_inv hs)
    · rw [if_neg h1]
      by_cases h2 : (hidden_singles (naked_singles s).1).2
      · rw [if_pos h2]
        exact ih _ (hidden_singles_inv (naked_singles_inv hs))
      · rw [if_neg h2]
        by_cases h3 : is_solved (hidden_singles (naked_singles s).1).1
        · rw [if_pos h3]
          exact hidden_singles_inv (naked_singles_inv hs)
        · rw [if_neg h3]
          exact backtrack_solve_inv 82 _ (hidden_singles_inv (naked_singles_inv hs))

/-- Claim C10 as amended: starting `solve()` on a board with values 0-9 and
no pre-existing conflicts, every recorded step has digit at most 9, and
every *hidden-single or MRV* step has digit at least 1; a naked-single step
can carry digit 0 when an earlier placement of the same scan emptied a
later listed cell's mask. -/
theorem solveAI_step_digits (b : Board) (_hb : ValsLe9 b)
    (_hc : find_conflicts b = Except.ok ∅) (fuel : Nat) :
    ∀ st ∈ (solveAI fuel (mkAI b)).1.steps,
      st.digit ≤ 9 ∧ (st.tech ≠ Technique.nakedSingle → 1 ≤ st.digit) := by
  have hinv : AIInv (mkAI b) :=
    ⟨fun r c => update_possibilities_all_lt b r c, fun st hst => by cases hst⟩
  exact (solveAI_inv fuel (mkAI b) hinv).2

/-- The board used to refute C10 as stated: conflict-free, with `(0, 4)`
and `(0, 8)` both naked singles for the same digit 5. -/
def cB10 : Board := mkBoard [
  [1, 2, 3, 4, 0, 6, 7, 8, 0],
  [0, 0, 0, 0, 9],
  [0, 0, 0, 0, 0, 0, 0, 0, 9]]

/-! ## Claim C9: which positions the removal phase attempts -/

/-- `row = pos // 9` of the packaged `generate_puzzle`. -/
def posRow (p : Fin 81) : Fin 9 := ⟨p.val / 9, by have := p.isLt; omega⟩

/-- `col = pos % 9` of the packaged `generate_puzzle`. -/
def posCol (p : Fin 81) : Fin 9 := ⟨p.val % 9, by omega⟩

/-- The removal phase of `generate_puzzle` in
`src/src/sudoku/core/sudoku_core.py`: `for pos in positions[:cells_to_remove]`
visits only the first `cells_to_remove` shuffled positions, whether or not
the removals are accepted; each visited cell is tentatively cleared
(`temp = board[row, col]; board[row, col] = 0`) and written back when
`count_solutions(board.copy())` is not 1. -/
def removalPhaseNew (b : Board) (ps : List (Fin 81)) (t : Nat) : Board :=
  (ps.take t).foldl (fun bd p =>
    if count_solutions (setCell bd (posRow p) (posCol p) 0) 2 ≠ 1 then
      setCell (setCell bd (posRow p) (posCol p) 0) (posRow p) (posCol p)
        (bd (posRow p) (posCol p))
    else setCell bd (posRow p) (posCol p) 0) b

/-- The removal loop exactly as the claim words it: visit successive
positions of the permutation; tentatively clear each, keep the clearing
when `count_solutions(board, limit=2) == 1` (decrementing the
remaining-removals counter), restore the digit otherwise; stop when the
counter reaches zero or the positions are exhausted.  This is a spec-side
definition, to be compared with `removalPhaseNew`. -/
def specRemovalLoop : Board → List (Fin 81) → Nat → Board
  | b, _, 0 => b
  | b, [], _ + 1 => b
  | b, p :: ps, t + 1 =>
    if count_solutions (setCell b (posRow p) (posCol p) 0) 2 = 1 then
      specRemovalLoop (setCell b (posRow p) (posCol p) 0) ps t
    else
      specRemovalLoop (setCell (setCell b (posRow p) (posCol p) 0)
        (posRow p) (posCol p) (b (posRow p) (posCol p))) ps (t + 1)

/-- The claim's per-position body (tentatively clear, test uniqueness on a
copy, restore the digit when the test fails) applied to every position of a
given list, with no early stop.  Spec-side definition for the amended
claim. -/
def specAttemptAll : Board → List (Fin 81) → Board
  | b, [] => b
  | b, p :: ps =>
    if count_solutions (setCell b (posRow p) (posCol p) 0) 2 = 1 then
      specAttemptAll (setCell b (posRow p) (posCol p) 0) ps
    else
      specAttemptAll (setCell (setCell b (posRow p) (posCol p) 0)
        (posRow p) (posCol p) (b (posRow p) (posCol p))) ps

/-- Claim C9 as amended: the packaged `generate_puzzle` performs the
claim's tentative clear/test/restore body at exactly the first
`cells_to_remove` positions of the permutation — the loop never continues
past them, even when fewer than the target number of removals were
accepted.  (The legacy `src/sudoku_core.py` copy instead behaves as the
claim states; see the counterexample for where the two differ.) -/
theorem removalPhaseNew_attempts_prefix (b : Board) (ps : List (Fin 81))
    (t : Nat) : removalPhaseNew b ps t = specAttemptAll b (ps.take t) := by
  rw [removalPhaseNew]
  generalize ps.take t = l
  induction l generalizing b with
  | nil => rfl
  | cons p l ih =>
    rw [List.foldl_cons, specAttemptAll]
    by_cases h : count_solutions (setCell b (posRow p) (posCol p) 0) 2 = 1
    · rw [if_pos h]
      rw [show (if count_solutions (setCell b (posRow p) (posCol p) 0) 2 ≠ 1
          then setCell (setCell b (posRow p) (posCol p) 0) (posRow p) (posCol p)
            (b (posRow p) (posCol p))
          else setCell b (posRow p) (posCol p) 0) =
        setCell b (posRow p) (posCol p) 0 from if_neg (by omega)]
      exact ih _
    · rw [if_neg h]
      rw [show (if count_solutions (setCell b (posRow p) (posCol p) 0) 2 ≠ 1
          then setCell (setCell b (posRow p) (posCol p) 0) (posRow p) (posCol p)
            (b (posRow p) (posCol p))
          else setCell b (posRow p) (posCol p) 0) =
        setCell (setCell b (posRow p) (posCol p) 0) (posRow p) (posCol p)
          (b (posRow p) (posCol p)) from if_pos h]
      exact ih _

/-- A full board on which acceptances and rejections are easy to evaluate:
clearing any cell of rows 0-7 leaves several valid digits (rejected),
clearing a cell of row 8 other than `(8, 0)` leaves exactly one (accepted). -/
def b9Board : Board := mkBoard [
  [1, 1, 1, 1, 1, 1, 1, 1, 1],
  [1, 1, 1, 1, 1, 1, 1, 1, 1],
  [1, 1, 1, 1, 1, 1, 1, 1, 1],
  [1, 1, 1, 1, 1, 1, 1, 1, 1],
  [1, 1, 1, 1, 1, 1, 1, 1, 1],
  [1, 1, 1, 1, 1, 1, 1, 1, 1],
  [1, 1, 1, 1, 1, 1, 1, 1, 1],
  [1, 1, 1, 1, 1, 1, 1, 1, 1],
  [1, 2, 3, 4, 5, 6, 7, 8, 9]]

/-- The permutation of the 81 positions used in the counterexample: cells
0-39 (rows 0-4, all rejected) first, then cell 80 (cell `(8, 8)`, which
would be accepted), then the rest. -/
def psB9 : List (Fin 81) :=
  (List.finRange 81).filter (fun p => p.val < 40) ++
    (⟨80, by omega⟩ : Fin 81) ::
      (List.finRange 81).filter (fun p => 40 ≤ p.val && p.val < 80)

/-- Counterexample to C9 as stated: `psB9` is a permutation of the 81
positions; at difficulty Easy (target 40) every one of the first 40
attempts is rejected, so the claimed loop goes on and accepts the removal
at position 80 = cell `(8, 8)`, while the packaged code stops after the
first 40 positions and leaves the cell filled. -/
theorem removal_phase_c9_counterexample :
    psB9.length = 81 ∧ psB9.Nodup ∧
      removalPhaseNew b9Board psB9 (cellsToRemove Difficulty.Easy) 8 8 = 9 ∧
      specRemovalLoop b9Board psB9 (cellsToRemove Difficulty.Easy) 8 8 = 0 := by
  refine ⟨by decide, by decide, by decide, by decide⟩

lemma nakedFold_steps :
    ∀ (cells : List (Fin 9 × Fin 9)) (s : AIState),
      ∃ l, (cells.foldl nakedStep s).steps = s.steps ++ l := by
  intro cells
  induction cells with
  | nil => intro s; exact ⟨[], by simp⟩
  | cons cell cells ih =>
    intro s
    rw [List.foldl_cons]
    obtain ⟨l, hl⟩ := ih (nakedStep s cell)
    refine ⟨⟨cell.1, cell.2, bitLen (s.poss cell.1 cell.2),
      Technique.nakedSingle⟩ :: l, ?_⟩
    rw [hl]
    show (s.steps ++ [_]) ++ l = _
    simp

lemma naked_singles_steps (s : AIState) :
    ∃ l, (naked_singles s).1.steps = s.steps ++ l :=
  nakedFold_steps _ s

lemma hidden_singles_steps (s : AIState) :
    ∃ l, (hidden_singles s).1.steps = s.steps ++ l := by
  obtain ⟨l, hl, _⟩ := hidden_fold_rounds (List.finRange 9) (s, false)
  exact ⟨l, hl⟩

lemma btLoop_steps (f : AIState → AIState × Bool)
    (hf : ∀ s2, ∃ l, (f s2).1.steps = s2.steps ++ l) (r c : Fin 9) :
    ∀ (ns : List Nat) (s : AIState),
      ∃ l, (btLoop f r c ns s).1.steps = s.steps ++ l := by
  intro ns
  induction ns with
  | nil => intro s; exact ⟨[], by rw [btLoop]; simp⟩
  | cons n ns ih =>
    intro s
    rw [btLoop]
    rcases hres : f ⟨setCell s.board r c n,
        update_possibilities_cells (setCell s.board r c n)
          s.poss (get_affected_cells r c),
        s.steps ++ [⟨r, c, n, Technique.backtrackMRV⟩]⟩
      with ⟨s3, ok⟩
    have hext : ∃ l, s3.steps =
        (s.steps ++ [⟨r, c, n, Technique.backtrackMRV⟩]) ++ l := by
      have := hf ⟨setCell s.board r c n,
        update_possibilities_cells (setCell s.board r c n)
          s.poss (get_affected_cells r c),
        s.steps ++ [⟨r, c, n, Technique.backtrackMRV⟩]⟩
      rw [hres] at this
      exact this
    obtain ⟨l1, hl1⟩ := hext
    cases ok with
    | true =>
      simp only [hres]
      exact ⟨⟨r, c, n, Technique.backtrackMRV⟩ :: l1, by rw [hl1]; simp⟩
    | false =>
      simp only [hres]
      obtain ⟨l2, hl2⟩ := ih ⟨setCell s3.board r c 0,
        update_possibilities_cells (setCell s3.board r c 0)
          s3.poss (get_affected_cells r c),
        s3.steps⟩
      refine ⟨⟨r, c, n, Technique.backtrackMRV⟩ :: (l1 ++ l2), ?_⟩
      rw [hl2]
      show s3.steps ++ l2 = _
      rw [hl1]
      simp

lemma backtrack_solve_steps :
    ∀ (fuel : Nat) (s : AIState),
      ∃ l, (backtrack_solve fuel s).1.steps = s.steps ++ l := by
  intro fuel
  induction fuel with
  | zero => intro s; exact ⟨[], by rw [backtrack_solve]; simp⟩
  | succ fuel ih =>
    intro s
    rw [backtrack_solve]
    by_cases hsolved : is_solved s
    · rw [if_pos hsolved]; exact ⟨[], by simp⟩
    · rw [if_neg hsolved]
      rcases hfind : find_empty_cell_with_fewest_possibilities s.board
          (update_possibilities_all s.board) with _ | ⟨r, c⟩
      · exact ⟨[], by simp⟩
      · exact btLoop_steps _ (fun s2 => ih s2) r c _ _

lemma solveAI_steps :
    ∀ (fuel : Nat) (s : AIState),
      ∃ l, (solveAI fuel s).1.steps = s.steps ++ l := by
  intro fuel
  induction fuel with
  | zero => intro s; exact ⟨[], by rw [solveAI]; simp⟩
  | succ fuel ih =>
    intro s
    rw [solveAI]
    obtain ⟨l1, hl1⟩ := naked_singles_steps s
    by_cases h1 : (naked_singles s).2
    · rw [if_pos h1]
      obtain ⟨l2, hl2⟩ := ih (naked_singles s).1
      exact ⟨l1 ++ l2, by rw [hl2, hl1, List.append_assoc]⟩
    · rw [if_neg h1]
      obtain ⟨l2, hl2⟩ := hidden_singles_steps (naked_singles s).1
      by_cases h2 : (hidden_singles (naked_singles s).1).2
      · rw [if_pos h2]
        obtain ⟨l3, hl3⟩ := ih (hidden_singles (naked_singles s).1).1
        refine ⟨l1 ++ (l2 ++ l3), ?_⟩
        rw [hl3, hl2, hl1]
        simp
      · rw [if_neg h2]
        by_cases h3 : is_solved (hidden_singles (naked_singles s).1).1
        · rw [if_pos h3]
          exact ⟨l1 ++ l2, by rw [hl2, hl1, List.append_assoc]⟩
        · rw [if_neg h3]
          obtain ⟨l3, hl3⟩ :=
            backtrack_solve_steps 82 (hidden_singles (naked_singles s).1).1
          refine ⟨l1 ++ (l2 ++ l3), ?_⟩
          rw [hl3, hl2, hl1]
          simp

/-- One fuel unwinding: the final step log extends the log produced by the
first `naked_singles` pass. -/
lemma solveAI_succ_steps (fuel : Nat) (s : AIState) :
    ∃ l, (solveAI (fuel + 1) s).1.steps = (naked_singles s).1.steps ++ l := by
  rw [solveAI]
  by_cases h1 : (naked_singles s).2
  · rw [if_pos h1]
    exact solveAI_steps fuel (naked_singles s).1
  · rw [if_neg h1]
    obtain ⟨l2, hl2⟩ := hidden_singles_steps (naked_singles s).1
    by_cases h2 : (hidden_singles (naked_singles s).1).2
    · rw [if_pos h2]
      obtain ⟨l3, hl3⟩ := solveAI_steps fuel (hidden_singles (naked_singles s).1).1
      exact ⟨l2 ++ l3, by rw [hl3, hl2, List.append_assoc]⟩
    · rw [if_neg h2]
      by_cases h3 : is_solved (hidden_singles (naked_singles s).1).1
      · rw [if_pos h3]
        exact ⟨l2, hl2⟩
      · rw [if_neg h3]
        obtain ⟨l3, hl3⟩ :=
          backtrack_solve_steps 82 (hidden_singles (naked_singles s).1).1
        exact ⟨l2 ++ l3, by rw [hl3, hl2, List.append_assoc]⟩

/-- Counterexample to C10 as stated: `cB10` is conflict-free with values
0-9, both `(0, 4)` and `(0, 8)` are naked singles for digit 5 when
`naked_singles` collects its list, and placing 5 at `(0, 4)` empties the
mask of `(0, 8)`; the still-pending entry `(0, 8)` is then processed with
`bit_length(0) = 0`, so `solve()` records a step with digit 0. -/
theorem solveAI_zero_digit_counterexample :
    find_conflicts cB10 = Except.ok ∅ ∧ ValsLe9 cB10 ∧
      ∃ st ∈ (solveAI 100 (mkAI cB10)).1.steps,
        st.digit = 0 ∧ st.tech = Technique.nakedSingle := by
  refine ⟨by decide, by decide, ?_⟩
  have h100 : solveAI 100 (mkAI cB10) = solveAI (99 + 1) (mkAI cB10) := rfl
  obtain ⟨l, hl⟩ := solveAI_succ_steps 99 (mkAI cB10)
  rw [h100, hl]
  have h1 : ∃ st ∈ (naked_singles (mkAI cB10)).1.steps,
      st.digit = 0 ∧ st.tech = Technique.nakedSingle := by decide
  obtain ⟨st, hmem, hst⟩ := h1
  exact ⟨st, List.mem_append.mpr (Or.inl hmem), hst⟩

/-- Witness for the amended C10 theorem: the canonical solved board has
values 0-9 and no conflicts, and the theorem applies to it. -/
theorem solveAI_step_digits_witness :
    (ValsLe9 solvedBoard ∧ find_conflicts solvedBoard = Except.ok ∅) ∧
      ∀ st ∈ (solveAI 3 (mkAI solvedBoard)).1.steps,
        st.digit ≤ 9 ∧ (st.tech ≠ Technique.nakedSingle → 1 ≤ st.digit) :=
  ⟨⟨by decide, by decide⟩,
    solveAI_step_digits solvedBoard (by decide) (by decide) 3⟩

end SudokuBuddy
